import Mathlib

/-!
Verification of the mp4svg binary-to-text container codecs.

Shallow embedding of the codec layer of the `mp4svg` repository:
the ASCII85-with-framing codec (`converters/ascii85_converter.py`),
the legacy unframed ASCII85 codec (`ascii85.py`), the polyglot
comment codec (`converters/polyglot_converter.py`), the chunk
envelope producer (`qrcode.py`), the format sniffer
(`validators/integrity_validator.py`) and the integrity comparison
logic of `IntegrityValidator`.

Bytes are modelled as `List Nat` (each element < 256), strings as
`List Char`.  Python loops over a growing index are modelled as
fuel-based structural recursions (fuel bounded by the input length),
so every definition is computable and kernel-reducible.  Fallible
Python code (exceptions) is modelled with `Option`.
-/

namespace Mp4svg

/-! ## Generic helpers -/

/-- Characters treated as whitespace by Python's `str.split()`. -/
def isPySpace (c : Char) : Bool :=
  (c == ' ') || (c == '\t') || (c == '\n') || (c == '\r') || (c == '\x0b') || (c == '\x0c')

/-- ASCII decimal digit test (`'0'`..`'9'`). -/
def isDigitChar (c : Char) : Bool :=
  48 ≤ c.toNat && c.toNat ≤ 57

/-- Lowercase hexadecimal digit test (`'0'`..`'9'`, `'a'`..`'f'`), the
alphabet of a hashlib `hexdigest()`. -/
def isHexChar (c : Char) : Bool :=
  isDigitChar c || (97 ≤ c.toNat && c.toNat ≤ 102)

/-- Value of a string of decimal digits, most significant first. -/
def digitsVal (cs : List Char) : Nat :=
  cs.foldl (fun a c => a * 10 + (c.toNat - 48)) 0

/-- The ten decimal digit characters. -/
def decDigits : List Char := "0123456789".toList

/-- Decimal digit character for a value below ten. -/
def digitChar (n : Nat) : Char := decDigits.getD n '0'

/-- Decimal rendering of a natural number (fuel-based; fuel `n+1` suffices). -/
def natDigitsF : Nat → Nat → List Char
  | 0, _ => []
  | fuel + 1, n =>
    if n < 10 then [digitChar n]
    else natDigitsF fuel (n / 10) ++ [digitChar (n % 10)]

/-- Decimal rendering of a natural number, as produced by a Python f-string. -/
def natDigits (n : Nat) : List Char := natDigitsF (n + 1) n

/-- Python `int(str)`: strip surrounding whitespace, optional sign, then a
non-empty run of decimal digits; anything else raises `ValueError`
(modelled as `none`).  Underscore digit separators are not modelled. -/
def pyParseInt (cs : List Char) : Option Int :=
  match ((cs.dropWhile isPySpace).reverse.dropWhile isPySpace).reverse with
  | [] => none
  | c :: rest =>
    if c = '-' then
      if rest ≠ [] ∧ rest.all isDigitChar then some (-(digitsVal rest : Int)) else none
    else if c = '+' then
      if rest ≠ [] ∧ rest.all isDigitChar then some (digitsVal rest : Int) else none
    else if (c :: rest).all isDigitChar then some (digitsVal (c :: rest) : Int) else none

/-- Python slice `l[:n]` for a possibly negative `n`. -/
def pyTake (l : List Nat) (n : Int) : List Nat :=
  if 0 ≤ n then l.take n.toNat else l.take ((l.length : Int) + n).toNat

/-- Does `pat` occur as a leading segment of `l`? -/
def leadsWith : List Char → List Char → Bool
  | [], _ => true
  | _ :: _, [] => false
  | p :: ps, c :: cs => p == c && leadsWith ps cs

/-- First index `≥ i` at which `pat` occurs in `hay` (Python `str.find(pat, i)`
restricted to the cases used here: `pat` non-empty). -/
def findSubFromF : Nat → List Char → List Char → Nat → Option Nat
  | 0, _, _, _ => none
  | fuel + 1, hay, pat, i =>
    if i + pat.length ≤ hay.length then
      if leadsWith pat (hay.drop i) then some i
      else findSubFromF fuel hay pat (i + 1)
    else none

/-- Python `hay.find(pat, i)` (for non-empty `pat`), `none` for `-1`. -/
def findSubFrom (hay pat : List Char) (i : Nat) : Option Nat :=
  findSubFromF (hay.length + 1) hay pat i

/-- Python `hay.find(pat)` (for non-empty `pat`), `none` for `-1`. -/
def findSub (hay pat : List Char) : Option Nat :=
  findSubFrom hay pat 0

/-- Does `pat` occur anywhere in `hay` (Python `pat in hay`)? -/
def containsSub (hay pat : List Char) : Bool :=
  (findSub hay pat).isSome

/-! ## Base64 (Python `base64.b64encode` / `b64decode` on conforming input)

The source delegates to Python's standard `base64` module; it is modelled
here as standard RFC 4648 base64 with `=` padding. -/

/-- The 64-character base64 alphabet in index order. -/
def b64Alphabet : List Char :=
  "ABCDEFGHIJKLMNOPQRSTUVWXYZabcdefghijklmnopqrstuvwxyz0123456789+/".toList

/-- Base64 digit character for a value below 64. -/
def b64Char (n : Nat) : Char := b64Alphabet.getD n 'A'

/-- Index of a character in the base64 alphabet, `none` if absent. -/
def b64Val (c : Char) : Option Nat :=
  b64Alphabet.indexOf? c

/-- `base64.b64encode`: encode bytes three at a time, `=`-padding the tail. -/
def b64encode : List Nat → List Char
  | [] => []
  | [a] => [b64Char (a / 4), b64Char (a % 4 * 16), '=', '=']
  | [a, b] => [b64Char (a / 4), b64Char (a % 4 * 16 + b / 16), b64Char (b % 16 * 4), '=']
  | a :: b :: c :: rest =>
    b64Char (a / 4) :: b64Char (a % 4 * 16 + b / 16) ::
      b64Char (b % 16 * 4 + c / 64) :: b64Char (c % 64) :: b64encode rest

/-- `base64.b64decode` on conforming input: four characters at a time, the
final quantum optionally `=`-padded; non-alphabet characters or a length
that is not a multiple of four raise `binascii.Error` (modelled `none`). -/
def b64decodeAux : List Char → Option (List Nat)
  | [] => some []
  | p :: q :: r :: s :: rest => do
    let vp ← b64Val p
    let vq ← b64Val q
    if rest = [] ∧ s = '=' then
      if r = '=' then
        pure [vp * 4 + vq / 16]
      else do
        let vr ← b64Val r
        pure [vp * 4 + vq / 16, vq % 16 * 16 + vr / 4]
    else do
      let vr ← b64Val r
      let vs ← b64Val s
      let tail ← b64decodeAux rest
      pure ((vp * 4 + vq / 16) :: (vq % 16 * 16 + vr / 4) :: (vr % 4 * 64 + vs) :: tail)
  | _ => none

/-! ## ASCII85 codec (`converters/ascii85_converter.py`)

`_encode_ascii85` processes the payload in 4-byte chunks, zero-padding a
short final chunk, emitting `z` for an all-zero chunk that lies entirely
inside the payload and five base-85 digit characters otherwise, and wraps
the result as `<~{len}:{body}~>`.  `_decode_ascii85` strips the
delimiters if present, parses the decimal length prefix up to the first
`:` (Python `find` returning `-1` when absent), expands `z` and 5-digit
groups (`u`-padding a short final group and dropping the corresponding
trailing bytes) and truncates to the parsed length.  A failed `int()`
parse or a group value outside `[0, 2^32)` (Python `struct.pack('>I')`)
raises; `extract` re-raises any such exception as `DecodingError`.
Failure is modelled as `none`. -/

/-- The 85 base-85 digit characters, code points 33..117 in order. -/
def base85Chars : List Char :=
  "!\"#$%&'()*+,-./0123456789:;<=>?@ABCDEFGHIJKLMNOPQRSTUVWXYZ[\\]^_`abcdefghijklmnopqrstu".toList

/-- Base-85 digit character for a value below 85 (Python `chr(33 + d)`). -/
def chr85 (d : Nat) : Char := base85Chars.getD d '!'

/-- The five base-85 digit characters of a 32-bit group value, most
significant first (the source builds them least significant first and
reverses). -/
def enc85 (v : Nat) : List Char :=
  [chr85 (v / 85 ^ 4 % 85), chr85 (v / 85 ^ 3 % 85), chr85 (v / 85 ^ 2 % 85),
   chr85 (v / 85 % 85), chr85 (v % 85)]

/-- Big-endian 32-bit value of four bytes (`struct.unpack('>I')`). -/
def wordBE : List Nat → Nat
  | [a, b, c, d] => a * 16777216 + b * 65536 + c * 256 + d
  | _ => 0

/-- The four big-endian bytes of a 32-bit value (`struct.pack('>I')`). -/
def pack4 (v : Nat) : List Nat :=
  [v / 16777216 % 256, v / 65536 % 256, v / 256 % 256, v % 256]

/-- Signed base-85 value of a padded 5-character group
(`value = value * 85 + (ord(char) - 33)`, over Python's unbounded ints). -/
def val85 (cs : List Char) : Int :=
  cs.foldl (fun a c => a * 85 + ((c.toNat : Int) - 33)) 0

/-- Body of the ASCII85 encoding: the loop of `_encode_ascii85` over 4-byte
chunks (fuel-based; any fuel `≥ data.length` computes the loop). -/
def encBodyF : Nat → List Nat → List Char
  | _, [] => []
  | 0, _ :: _ => []
  | fuel + 1, data =>
    let chunk := data.take 4
    let v := wordBE (chunk ++ List.replicate (4 - chunk.length) 0)
    (if v = 0 ∧ 4 ≤ data.length then ['z'] else enc85 v) ++ encBodyF fuel (data.drop 4)

/-- Body of the ASCII85 encoding of a payload. -/
def encBody (data : List Nat) : List Char := encBodyF data.length data

/-- The frame literal `<~{n}:{body}~>`. -/
def asciiFrame (n : Nat) (body : List Char) : List Char :=
  '<' :: '~' :: natDigits n ++ ':' :: body ++ ['~', '>']

/-- `ASCII85SVGConverter._encode_ascii85`: framed ASCII85 encoding
`<~{len}:{body}~>`. -/
def asciiEncode (data : List Nat) : List Char :=
  asciiFrame data.length (encBody data)

/-- Decoding loop of `_decode_ascii85`: expand `z` to four zero bytes,
otherwise take five characters (`u`-padding a short final group and
dropping `padding` trailing bytes), pack each group value as four
big-endian bytes; a group value outside `[0, 2^32)` raises
`struct.error` (`none`).  Fuel-based; any fuel `≥ cs.length` computes
the loop. -/
def decBodyF : Nat → List Char → Option (List Nat)
  | _, [] => some []
  | 0, _ :: _ => none
  | fuel + 1, c :: cs =>
    if c = 'z' then
      (fun rest => 0 :: 0 :: 0 :: 0 :: rest) <$> decBodyF fuel cs
    else
      let chunk := (c :: cs).take 5
      let padded := chunk ++ List.replicate (5 - chunk.length) 'u'
      let v := val85 padded
      if 0 ≤ v ∧ v < 4294967296 then
        let bs := if chunk.length < 5 then (pack4 v.toNat).take (chunk.length - 1) else pack4 v.toNat
        (fun rest => bs ++ rest) <$> decBodyF fuel ((c :: cs).drop 5)
      else none

/-- Decode the body of an ASCII85 string. -/
def decBody (cs : List Char) : Option (List Nat) := decBodyF cs.length cs

/-- Strip a trailing `~>` if present. -/
def stripEnd (s : List Char) : List Char :=
  if leadsWith ['>', '~'] s.reverse then s.dropLast.dropLast else s

/-- Strip a leading `<~` and a trailing `~>` if present (each optional). -/
def stripDelims (cs : List Char) : List Char :=
  stripEnd (if leadsWith ['<', '~'] cs then cs.drop 2 else cs)

/-- Text before the first `:` of the delimiter-stripped input — the length
prefix handed to `int()`; with no `:`, Python's `find` returns `-1` and
`encoded[:-1]` is all but the last character. -/
def lenPrefixPart (cs : List Char) : List Char :=
  let s := stripDelims cs
  match findSub s [':'] with
  | some k => s.take k
  | none => s.dropLast

/-- Text after the first `:` of the delimiter-stripped input — the body that
the decoding loop scans; with no `:`, `encoded[(-1)+1:]` is the whole
string. -/
def bodyPart (cs : List Char) : List Char :=
  let s := stripDelims cs
  match findSub s [':'] with
  | some k => s.drop (k + 1)
  | none => s

/-- `ASCII85SVGConverter._decode_ascii85` (failure modelled as `none`;
`extract` re-raises any exception as `DecodingError`). -/
def asciiDecode (cs : List Char) : Option (List Nat) :=
  match pyParseInt (lenPrefixPart cs) with
  | none => none
  | some n => (fun bs => pyTake bs n) <$> decBody (bodyPart cs)

/-- Number of bytes the decoding loop expands from a body: 4 for `z`, 4 for
a full 5-character group, `k - 1` for a trailing short group of `k`
characters. -/
def expandedLenF : Nat → List Char → Nat
  | _, [] => 0
  | 0, _ :: _ => 0
  | fuel + 1, c :: cs =>
    if c = 'z' then 4 + expandedLenF fuel cs
    else if (c :: cs).length < 5 then (c :: cs).length - 1
    else 4 + expandedLenF fuel ((c :: cs).drop 5)

/-- Number of bytes the decoding loop expands from a body. -/
def expandedLen (cs : List Char) : Nat := expandedLenF cs.length cs

/-- Does every group scanned by the decoding loop have a base-85 value
inside `[0, 2^32)` (so that `struct.pack('>I')` succeeds)? -/
def scanOkF : Nat → List Char → Bool
  | _, [] => true
  | 0, _ :: _ => false
  | fuel + 1, c :: cs =>
    if c = 'z' then scanOkF fuel cs
    else
      let chunk := (c :: cs).take 5
      let padded := chunk ++ List.replicate (5 - chunk.length) 'u'
      let v := val85 padded
      decide (0 ≤ v ∧ v < 4294967296) && scanOkF fuel ((c :: cs).drop 5)

/-- Does every group scanned by the decoding loop pack successfully? -/
def scanOk (cs : List Char) : Bool := scanOkF cs.length cs

/-! ## Legacy ASCII85 codec (`ascii85.py`)

The module-level `ascii85.py` keeps an older copy of the codec: its
`_encode_ascii85` emits `<~{body}~>` with no length prefix and its
`_decode_ascii85` expands every group to four full bytes with no
truncation, so a payload whose length is not a multiple of four decodes
to its zero-padded completion.  `IntegrityValidator` instantiates this
module's converter. -/

/-- `ascii85.py`'s `_encode_ascii85`: same group encoding, no length
frame. -/
def oldAsciiEncode (data : List Nat) : List Char :=
  '<' :: '~' :: encBody data ++ ['~', '>']

/-- Decoding loop of `ascii85.py`'s `_decode_ascii85`: like the framed
decoder's loop but with no trailing-byte drop for a short group. -/
def oldDecBodyF : Nat → List Char → Option (List Nat)
  | _, [] => some []
  | 0, _ :: _ => none
  | fuel + 1, c :: cs =>
    if c = 'z' then
      (fun rest => 0 :: 0 :: 0 :: 0 :: rest) <$> oldDecBodyF fuel cs
    else
      let chunk := (c :: cs).take 5
      let padded := chunk ++ List.replicate (5 - chunk.length) 'u'
      let v := val85 padded
      if 0 ≤ v ∧ v < 4294967296 then
        (fun rest => pack4 v.toNat ++ rest) <$> oldDecBodyF fuel ((c :: cs).drop 5)
      else none

/-- `ascii85.py`'s `_decode_ascii85`: strip delimiters, expand groups, no
length truncation. -/
def oldAsciiDecode (cs : List Char) : Option (List Nat) :=
  oldDecBodyF (stripDelims cs).length (stripDelims cs)

/-! ## Polyglot codec (`converters/polyglot_converter.py`)

`_encode_for_svg_comment` base64-encodes the payload and re-wraps it in
80-character lines joined by newlines; `_decode_from_svg_comment` removes
all whitespace (`''.join(s.split())`) and base64-decodes.  `extract`
searches the container for the literal markers and returns `False`
(printing a message) when they are absent; only an exception inside the
decode step is re-raised as `DecodingError`. -/

/-- Split a sequence into consecutive pieces of `w` elements (the last may
be shorter), as the Python slice loop `range(0, len, w)` does for
`w > 0`.  Fuel-based; any fuel `≥ s.length` computes the loop. -/
def chunksOfF {α : Type} : Nat → Nat → List α → List (List α)
  | _, _, [] => []
  | 0, _, _ => []
  | fuel + 1, w, s => s.take w :: chunksOfF fuel w (s.drop w)

/-- Python `'\n'.join(lines)`. -/
def joinNL : List (List Char) → List Char
  | [] => []
  | [l] => l
  | l :: ls => l ++ '\n' :: joinNL ls

/-- Re-wrap a string into `w`-character lines joined by `'\n'`. -/
def wrapLines (w : Nat) (s : List Char) : List Char :=
  joinNL (chunksOfF s.length w s)

/-- `_encode_for_svg_comment` generalised over the line width (the source
fixes `w = 80`). -/
def encodeForSvgCommentW (w : Nat) (data : List Nat) : List Char :=
  wrapLines w (b64encode data)

/-- `PolyglotSVGConverter._encode_for_svg_comment`. -/
def encodeForSvgComment (data : List Nat) : List Char :=
  encodeForSvgCommentW 80 data

/-- `PolyglotSVGConverter._decode_from_svg_comment`: strip all whitespace,
base64-decode (a `binascii.Error` is modelled as `none`). -/
def decodeFromSvgComment (encoded : List Char) : Option (List Nat) :=
  b64decodeAux (encoded.filter (fun c => !isPySpace c))

/-- The literal MP4 section start marker searched by `extract`. -/
def mp4StartMarker : List Char := "<!--MP4_DATA\n".toList

/-- The literal MP4 section end marker searched by `extract`. -/
def mp4EndMarker : List Char := "\nMP4_DATA-->".toList

/-- Outcome of `PolyglotSVGConverter.extract`: `noData` and `malformed`
are the two `return False` paths (each after printing a message), `ok`
is the successful path (`return True` after writing the bytes), and
`decodeFailed` is the `except` path that re-raises as `DecodingError`. -/
inductive PolyglotExtractResult where
  | noData : PolyglotExtractResult
  | malformed : PolyglotExtractResult
  | ok : List Nat → PolyglotExtractResult
  | decodeFailed : PolyglotExtractResult
deriving DecidableEq

/-- `PolyglotSVGConverter.extract` on the container text: find the start
marker (`content.find`), then the end marker from the start index
onward, slice the region between them and decode it. -/
def polyglotExtract (content : List Char) : PolyglotExtractResult :=
  match findSub content mp4StartMarker with
  | none => .noData
  | some i =>
    match findSubFrom content mp4EndMarker i with
    | none => .malformed
    | some j =>
      match decodeFromSvgComment ((content.take j).drop (i + mp4StartMarker.length)) with
      | some bytes => .ok bytes
      | none => .decodeFailed

/-- The converter instance state: `__init__` draws 16 random bytes once and
stores `boundary = "POLYGLOT_BOUNDARY_" + md5(os.urandom(16)).hexdigest()`
for the lifetime of the instance. -/
structure PolyglotState where
  boundary : List Char
deriving DecidableEq

/-- `PolyglotSVGConverter.__init__`, with the hash of the random bytes
passed as an explicit function (`hexHash` models
`md5(entropy).hexdigest()`, an external hashlib call). -/
def mkPolyglotState (hexHash : List Nat → List Char) (entropy : List Nat) : PolyglotState :=
  ⟨"POLYGLOT_BOUNDARY_".toList ++ hexHash entropy⟩

/-- The MP4 section of the polyglot content assembled by `convert` (no PDF
supplied): `"<!--" + boundary + "\n<!--MP4_DATA\n" + encoded +
"\nMP4_DATA-->" + "\n" + boundary + "-->"`.  `convert` appends the SVG
template and a summary comment (both built from external video
metadata) after this section; it draws no randomness itself and reads
the boundary from the instance. -/
def polyglotSectionText (st : PolyglotState) (mp4Data : List Nat) : List Char :=
  "<!--".toList ++ st.boundary ++ "\n<!--MP4_DATA\n".toList ++
    encodeForSvgComment mp4Data ++ "\nMP4_DATA-->\n".toList ++ st.boundary ++ "-->".toList

/-! ## Format sniffer (`IntegrityValidator._detect_format`)

Substring signatures checked in a fixed order with `elif`, first match
wins (`SVGValidator._detect_format` checks the same first four
signatures in the same order). -/

/-- The closed set of detectable container formats. -/
inductive FormatTag where
  | polyglot : FormatTag
  | ascii85 : FormatTag
  | qrcode : FormatTag
  | vector : FormatTag
deriving DecidableEq

/-- `IntegrityValidator._detect_format` on the container text. -/
def detectFormat (content : List Char) : Option FormatTag :=
  if containsSub content "POLYGLOT_BOUNDARY_".toList then some .polyglot
  else if containsSub content "encoding=\"ascii85\"".toList then some .ascii85
  else if containsSub content "qr-frame-".toList then some .qrcode
  else if containsSub content "<path d=".toList && containsSub content "<set attributeName=".toList then
    some .vector
  else none

/-! ## Integrity comparison (`IntegrityValidator.validate_integrity`)

On a successful extraction with an original supplied, the validator
computes `size_match = (extracted_size == original_size)`,
`checksum_match` as equality of the two sha256 hexdigests, and
`data_integrity_valid = size_match and checksum_match`.  sha256 digest
equality is modelled as byte-sequence equality: equal buffers always
have equal digests, and collision resistance idealises the converse.
The validator instantiates the legacy `ascii85.py` converter
(`from ..ascii85 import ASCII85SVGConverter`), so an ascii85 container
round trip goes through `oldAsciiEncode`/`oldAsciiDecode`; the file and
XML plumbing and the base64 XML-safety wrapper (which round-trips, see
below) are elided. -/

/-- The comparison fields of the validator's report. -/
structure IntegrityReport where
  extraction_successful : Bool
  size_match : Bool
  checksum_match : Bool
  data_integrity_valid : Bool
deriving DecidableEq

/-- `validate_integrity` on an ascii85 container produced from `original`
by the validator's own codec (`ascii85.py`), with `original` supplied
for comparison. -/
def validateAscii85RoundTrip (original : List Nat) : IntegrityReport :=
  match oldAsciiDecode (oldAsciiEncode original) with
  | none => ⟨false, false, false, false⟩
  | some extracted =>
    let sm := decide (extracted.length = original.length)
    let cm := decide (extracted = original)
    ⟨true, sm, cm, sm && cm⟩

/-! ## Chunk envelopes (`qrcode.py`)

`QRCodeSVGConverter.convert` splits the payload into `chunk_size`-byte
chunks and serialises one envelope per chunk:
`{'idx': i, 'total': n, 'checksum': md5(chunk).hexdigest()[:8],
'data': b64encode(chunk)}`.  The digest is an external hashlib call and
is passed as an explicit function. -/

/-- Split a payload into consecutive chunks of at most `size` bytes
(`size > 0`; the last chunk may be shorter), the slice loop of
`QRCodeSVGConverter.convert`. -/
def chunkSplit (size : Nat) (data : List Nat) : List (List Nat) :=
  chunksOfF data.length size data

/-- One chunk envelope: the JSON object with keys `idx`, `total`,
`checksum` and `data`. -/
structure ChunkEnvelope where
  idx : Nat
  total : Nat
  checksum : List Char
  data : List Char
deriving DecidableEq

/-- The envelopes `QRCodeSVGConverter.convert` produces for a payload,
given the chunk digest function (`md5(chunk).hexdigest()[:8]`). -/
def mkEnvelopes (digest : List Nat → List Char) (size : Nat) (payload : List Nat) :
    List ChunkEnvelope :=
  let chunks := chunkSplit size payload
  chunks.enum.map fun p => ⟨p.1, chunks.length, digest p.2, b64encode p.2⟩

/-- Errors of the chunk-envelope decode contract. -/
inductive ChunkDecodeError where
  | badIndices : List Nat → List Nat → ChunkDecodeError
  | corrupt : Nat → ChunkDecodeError
deriving DecidableEq

/-- Insert an envelope into a list sorted by ascending `idx`. -/
def insertByIdx (e : ChunkEnvelope) : List ChunkEnvelope → List ChunkEnvelope
  | [] => [e]
  | x :: xs => if e.idx ≤ x.idx then e :: x :: xs else x :: insertByIdx e xs

/-- Sort envelopes by ascending `idx` (insertion sort). -/
def sortByIdx : List ChunkEnvelope → List ChunkEnvelope
  | [] => []
  | e :: es => insertByIdx e (sortByIdx es)

/-- The `total` field governing a decode: that of the first envelope
(`0` for an empty sequence). -/
def headTotal (envs : List ChunkEnvelope) : Nat :=
  (envs.head?.map ChunkEnvelope.total).getD 0

/-- Indices of `[0, total)` not present among the envelopes. -/
def missingIdx (envs : List ChunkEnvelope) : List Nat :=
  (List.range (headTotal envs)).filter
    (fun i => decide ((envs.map ChunkEnvelope.idx).count i = 0))

/-- Indices of `[0, total)` present more than once among the envelopes. -/
def dupIdx (envs : List ChunkEnvelope) : List Nat :=
  (List.range (headTotal envs)).filter
    (fun i => decide (1 < (envs.map ChunkEnvelope.idx).count i))

/-- Does an envelope fail verification: its `data` is not valid base64, or
the digest of the decoded bytes disagrees with `checksum`? -/
def envFails (digest : List Nat → List Char) (e : ChunkEnvelope) : Bool :=
  match b64decodeAux e.data with
  | none => true
  | some bytes => decide (digest bytes ≠ e.checksum)

/-- First failing index of the per-chunk verification scan. -/
def checkChunks (digest : List Nat → List Char) : List ChunkEnvelope → Option Nat
  | [] => none
  | e :: es => if envFails digest e then some e.idx else checkChunks digest es

/-- Modelled from the spec: the chunk-envelope `decode` contract (§4.3) is
not implemented under `src/` — `QRCodeSVGConverter.extract` only emits
a helper script, and the spec notes the reconstruction path is "only
partially realized in the source".  Per the spec: require every index
in `[0, total)` present exactly once (else fail listing missing and
duplicate indices), verify each chunk's digest before use (else fail
naming the first corrupted index in ascending-`idx` order), then sort
by `idx` and concatenate the decoded chunk bytes. -/
def chunkDecode (digest : List Nat → List Char) (envs : List ChunkEnvelope) :
    Except ChunkDecodeError (List Nat) :=
  if missingIdx envs ≠ [] ∨ dupIdx envs ≠ [] then
    .error (.badIndices (missingIdx envs) (dupIdx envs))
  else
    match checkChunks digest (sortByIdx envs) with
    | some i => .error (.corrupt i)
    | none => .ok ((sortByIdx envs).map (fun e => (b64decodeAux e.data).getD [])).flatten

/-! ## Fuel irrelevance and unfolding lemmas -/

theorem decBodyF_congr (f : Nat) :
    ∀ (g : Nat) (cs : List Char), cs.length ≤ f → cs.length ≤ g → decBodyF f cs = decBodyF g cs := by
  induction f with
  | zero =>
    intro g cs hf _
    have : cs = [] := List.eq_nil_of_length_eq_zero (Nat.le_zero.mp hf)
    subst this
    simp [decBodyF]
  | succ f ih =>
    intro g cs hf hg
    match cs with
    | [] => simp [decBodyF]
    | c :: cs' =>
      obtain ⟨g', rfl⟩ : ∃ g'', g = g'' + 1 := ⟨g - 1, by simp at hg; omega⟩
      simp only [decBodyF]
      by_cases hz : c = 'z'
      · simp only [if_pos hz]
        rw [ih g' cs' (by simp at hf; omega) (by simp at hg; omega)]
      · simp only [if_neg hz]
        rw [ih g' ((c :: cs').drop 5) (by simp at hf ⊢; omega) (by simp at hg ⊢; omega)]

theorem decBody_nil : decBody [] = some [] := rfl

theorem decBody_z (cs : List Char) :
    decBody ('z' :: cs) = (fun r => 0 :: 0 :: 0 :: 0 :: r) <$> decBody cs := by
  simp [decBody, decBodyF]

theorem decBody_cons (c : Char) (cs : List Char) (hz : c ≠ 'z') :
    decBody (c :: cs) =
      (let chunk := (c :: cs).take 5
      let padded := chunk ++ List.replicate (5 - chunk.length) 'u'
      let v := val85 padded
      if 0 ≤ v ∧ v < 4294967296 then
        (fun rest =>
          (if chunk.length < 5 then (pack4 v.toNat).take (chunk.length - 1) else pack4 v.toNat) ++
            rest) <$> decBody ((c :: cs).drop 5)
      else none) := by
  simp only [decBody, List.length_cons]
  simp only [decBodyF, if_neg hz]
  rw [decBodyF_congr cs.length ((c :: cs).drop 5).length ((c :: cs).drop 5)
    (by simp only [List.length_drop, List.length_cons]; omega) (le_refl _)]

theorem encBodyF_congr (f : Nat) :
    ∀ (g : Nat) (data : List Nat),
      data.length ≤ f → data.length ≤ g → encBodyF f data = encBodyF g data := by
  induction f with
  | zero =>
    intro g data hf _
    have : data = [] := List.eq_nil_of_length_eq_zero (Nat.le_zero.mp hf)
    subst this
    simp [encBodyF]
  | succ f ih =>
    intro g data hf hg
    match data with
    | [] => simp [encBodyF]
    | a :: data' =>
      obtain ⟨g', rfl⟩ : ∃ g'', g = g'' + 1 := ⟨g - 1, by simp at hg; omega⟩
      simp only [encBodyF]
      rw [ih g' ((a :: data').drop 4) (by simp at hf ⊢; omega) (by simp at hg ⊢; omega)]

theorem encBody_nil : encBody [] = [] := rfl

theorem encBody_cons (a : Nat) (data : List Nat) :
    encBody (a :: data) =
      (let chunk := (a :: data).take 4
      let v := wordBE (chunk ++ List.replicate (4 - chunk.length) 0)
      (if v = 0 ∧ 4 ≤ (a :: data).length then ['z'] else enc85 v)) ++
        encBody ((a :: data).drop 4) := by
  simp only [encBody, List.length_cons]
  simp only [encBodyF]
  rw [encBodyF_congr data.length ((a :: data).drop 4).length ((a :: data).drop 4)
    (by simp only [List.length_drop, List.length_cons]; omega) (le_refl _)]
  simp only [List.length_cons]

/-! ## Base-85 group arithmetic -/

theorem chr85_toNat : ∀ d, d < 85 → (chr85 d).toNat = 33 + d := by decide

theorem chr85_ne_z : ∀ d, d < 85 → chr85 d ≠ 'z' := by decide

theorem wordBE_lt (a b c d : Nat) (ha : a < 256) (hb : b < 256) (hc : c < 256) (hd : d < 256) :
    wordBE [a, b, c, d] < 4294967296 := by
  simp only [wordBE]
  omega

theorem wordBE_eq_zero (a b c d : Nat) (h : wordBE [a, b, c, d] = 0) :
    a = 0 ∧ b = 0 ∧ c = 0 ∧ d = 0 := by
  simp only [wordBE] at h
  omega

theorem pack4_wordBE (a b c d : Nat) (ha : a < 256) (hb : b < 256) (hc : c < 256) (hd : d < 256) :
    pack4 (wordBE [a, b, c, d]) = [a, b, c, d] := by
  simp only [wordBE, pack4, List.cons.injEq, and_true]
  omega

theorem val85_enc85 (v : Nat) (hv : v < 4294967296) : val85 (enc85 v) = (v : Int) := by
  simp only [val85, enc85, List.foldl]
  rw [chr85_toNat _ (Nat.mod_lt _ (by norm_num)), chr85_toNat _ (Nat.mod_lt _ (by norm_num)),
    chr85_toNat _ (Nat.mod_lt _ (by norm_num)), chr85_toNat _ (Nat.mod_lt _ (by norm_num)),
    chr85_toNat _ (Nat.mod_lt _ (by norm_num))]
  push_cast
  omega

theorem enc85_head_ne_z (v : Nat) : chr85 (v / 85 ^ 4 % 85) ≠ 'z' :=
  chr85_ne_z _ (Nat.mod_lt _ (by norm_num))

theorem decBody_group (v : Nat) (hv : v < 4294967296) (rest : List Char) :
    decBody (enc85 v ++ rest) = (fun r => pack4 v ++ r) <$> decBody rest := by
  have hshape : enc85 v ++ rest =
      chr85 (v / 85 ^ 4 % 85) :: (chr85 (v / 85 ^ 3 % 85) :: chr85 (v / 85 ^ 2 % 85) ::
        chr85 (v / 85 % 85) :: chr85 (v % 85) :: rest) := rfl
  rw [hshape, decBody_cons _ _ (enc85_head_ne_z v)]
  have htake : (chr85 (v / 85 ^ 4 % 85) :: chr85 (v / 85 ^ 3 % 85) :: chr85 (v / 85 ^ 2 % 85) ::
      chr85 (v / 85 % 85) :: chr85 (v % 85) :: rest).take 5 = enc85 v := rfl
  have hdrop : (chr85 (v / 85 ^ 4 % 85) :: chr85 (v / 85 ^ 3 % 85) :: chr85 (v / 85 ^ 2 % 85) ::
      chr85 (v / 85 % 85) :: chr85 (v % 85) :: rest).drop 5 = rest := rfl
  have hlen : (enc85 v).length = 5 := rfl
  dsimp only
  rw [htake, hdrop, hlen]
  simp only [Nat.sub_self, List.replicate_zero, List.append_nil, lt_irrefl, if_false,
    val85_enc85 v hv]
  rw [if_pos ⟨Int.ofNat_nonneg v, by exact_mod_cast hv⟩]
  simp

/-! ## ASCII85 round trip -/

theorem encBody_short (data : List Nat) (h1 : 1 ≤ data.length) (h4 : data.length < 4) :
    encBody data = enc85 (wordBE (data ++ List.replicate (4 - data.length) 0)) := by
  match data with
  | a :: rest =>
    rw [encBody_cons]
    have htake : (a :: rest).take 4 = a :: rest := List.take_of_length_le (by omega)
    have hdrop : (a :: rest).drop 4 = [] := List.drop_eq_nil_of_le (by omega)
    dsimp only
    rw [htake, hdrop, encBody_nil, List.append_nil,
      if_neg (fun h => by have := h.2; simp at this; omega)]

theorem encBody_full (a b c d : Nat) (rest : List Nat) :
    encBody (a :: b :: c :: d :: rest) =
      (if wordBE [a, b, c, d] = 0 then ['z'] else enc85 (wordBE [a, b, c, d])) ++
        encBody rest := by
  rw [encBody_cons]
  have htake : (a :: b :: c :: d :: rest).take 4 = [a, b, c, d] := rfl
  have hdrop : (a :: b :: c :: d :: rest).drop 4 = rest := rfl
  dsimp only
  rw [htake, hdrop]
  have hlen : ([a, b, c, d] : List Nat).length = 4 := rfl
  rw [hlen, Nat.sub_self, List.replicate_zero, List.append_nil]
  congr 1
  by_cases h0 : wordBE [a, b, c, d] = 0
  · rw [if_pos h0, if_pos ⟨h0, by simp only [List.length_cons]; omega⟩]
  · rw [if_neg h0, if_neg (fun h => h0 h.1)]

theorem decBody_encBody :
    ∀ (n : Nat) (data : List Nat), data.length ≤ n → (∀ b ∈ data, b < 256) →
      decBody (encBody data) =
        some (data ++ List.replicate ((4 - data.length % 4) % 4) 0) := by
  intro n
  induction n with
  | zero =>
    intro data hlen _
    have : data = [] := List.eq_nil_of_length_eq_zero (Nat.le_zero.mp hlen)
    subst this
    simp [encBody_nil, decBody_nil]
  | succ n ih =>
    intro data hlen hb
    match data with
    | [] => simp [encBody_nil, decBody_nil]
    | [a] =>
      have ha : a < 256 := hb a (by simp)
      have hv : wordBE [a, 0, 0, 0] < 4294967296 :=
        wordBE_lt _ _ _ _ ha (by norm_num) (by norm_num) (by norm_num)
      rw [encBody_short [a] (by norm_num) (by norm_num),
        show ([a] ++ List.replicate (4 - [a].length) 0) = [a, 0, 0, 0] from rfl,
        ← List.append_nil (enc85 _), decBody_group _ hv, decBody_nil]
      simp [pack4_wordBE a 0 0 0 ha (by norm_num) (by norm_num) (by norm_num)]
    | [a, b] =>
      have ha : a < 256 := hb a (by simp)
      have hb' : b < 256 := hb b (by simp)
      have hv : wordBE [a, b, 0, 0] < 4294967296 :=
        wordBE_lt _ _ _ _ ha hb' (by norm_num) (by norm_num)
      rw [encBody_short [a, b] (by norm_num) (by norm_num),
        show ([a, b] ++ List.replicate (4 - [a, b].length) 0) = [a, b, 0, 0] from rfl,
        ← List.append_nil (enc85 _), decBody_group _ hv, decBody_nil]
      simp [pack4_wordBE a b 0 0 ha hb' (by norm_num) (by norm_num)]
    | [a, b, c] =>
      have ha : a < 256 := hb a (by simp)
      have hb' : b < 256 := hb b (by simp)
      have hc : c < 256 := hb c (by simp)
      have hv : wordBE [a, b, c, 0] < 4294967296 :=
        wordBE_lt _ _ _ _ ha hb' hc (by norm_num)
      rw [encBody_short [a, b, c] (by norm_num) (by norm_num),
        show ([a, b, c] ++ List.replicate (4 - [a, b, c].length) 0) = [a, b, c, 0] from rfl,
        ← List.append_nil (enc85 _), decBody_group _ hv, decBody_nil]
      simp [pack4_wordBE a b c 0 ha hb' hc (by norm_num)]
    | a :: b :: c :: d :: rest =>
      have ha : a < 256 := hb a (by simp)
      have hb' : b < 256 := hb b (by simp)
      have hc : c < 256 := hb c (by simp)
      have hd : d < 256 := hb d (by simp)
      have hrest : ∀ x ∈ rest, x < 256 := fun x hx => hb x (by simp [hx])
      have hlenr : rest.length ≤ n := by simp at hlen; omega
      have ihr := ih rest hlenr hrest
      have hmod : (4 - rest.length % 4) % 4 = (4 - (a :: b :: c :: d :: rest).length % 4) % 4 := by
        simp only [List.length_cons]
        omega
      rw [encBody_full]
      by_cases h0 : wordBE [a, b, c, d] = 0
      · obtain ⟨rfl, rfl, rfl, rfl⟩ := wordBE_eq_zero a b c d h0
        rw [if_pos h0, List.singleton_append, decBody_z, ihr]
        simp only [Option.map_some, Option.some.injEq]
        rw [hmod]
        rfl
      · have hv : wordBE [a, b, c, d] < 4294967296 := wordBE_lt _ _ _ _ ha hb' hc hd
        rw [if_neg h0, decBody_group _ hv, ihr]
        simp only [Option.map_some, Option.some.injEq]
        rw [pack4_wordBE a b c d ha hb' hc hd, hmod]
        rfl

/-! ## Frame parsing lemmas -/

theorem stripDelims_frame (mid : List Char) :
    stripDelims ('<' :: '~' :: mid ++ ['~', '>']) = mid := by
  have hdrop2 : ('<' :: '~' :: mid ++ ['~', '>']).drop 2 = mid ++ ['~', '>'] := rfl
  have hrev : (mid ++ ['~', '>']).reverse = '>' :: '~' :: mid.reverse := by simp
  have hlast : (mid ++ ['~', '>']).dropLast.dropLast = mid := by
    rw [show mid ++ ['~', '>'] = (mid ++ ['~']) ++ ['>'] by simp, List.dropLast_concat,
      List.dropLast_concat]
  rw [stripDelims, if_pos (by simp [leadsWith]), hdrop2, stripEnd, hrev,
    if_pos (by simp [leadsWith]), hlast]

theorem findSubFromF_shift (f : Nat) :
    ∀ (c : Char) (hay pat : List Char) (i : Nat),
      findSubFromF f (c :: hay) pat (i + 1) = (findSubFromF f hay pat i).map (· + 1) := by
  induction f with
  | zero => intro c hay pat i; simp [findSubFromF]
  | succ f ih =>
    intro c hay pat i
    simp only [findSubFromF, List.length_cons, List.drop_succ_cons]
    by_cases hle : i + pat.length ≤ hay.length
    · rw [if_pos (by omega), if_pos hle]
      by_cases hlw : leadsWith pat (hay.drop i) = true
      · rw [if_pos hlw, if_pos hlw]
        rfl
      · rw [if_neg hlw, if_neg hlw, ih]
    · rw [if_neg (by omega), if_neg hle]
      rfl

theorem findSub_prefix_colon (pre : List Char) (body : List Char)
    (hpre : ∀ c ∈ pre, c ≠ ':') :
    findSub (pre ++ ':' :: body) [':'] = some pre.length := by
  induction pre with
  | nil =>
    show findSub (':' :: body) [':'] = some 0
    simp only [findSub, findSubFrom]
    rw [findSubFromF]
    rw [if_pos (by simp), if_pos (by simp [leadsWith])]
  | cons c pre' ih =>
    have hc : c ≠ ':' := hpre c (by simp)
    simp only [List.cons_append, findSub, findSubFrom]
    rw [findSubFromF]
    rw [if_pos (by simp)]
    rw [if_neg (by
      simp only [List.drop_zero, leadsWith, Bool.and_true, beq_iff_eq]
      exact fun h => hc h.symm)]
    rw [show (c :: (pre' ++ ':' :: body)).length = (pre' ++ ':' :: body).length + 1 from by simp]
    rw [findSubFromF_shift]
    rw [show findSubFromF ((pre' ++ ':' :: body).length + 1) (pre' ++ ':' :: body) [':'] 0 =
      findSub (pre' ++ ':' :: body) [':'] from rfl]
    rw [ih (fun x hx => hpre x (by simp [hx]))]
    simp

/-! ## Decimal digit lemmas -/

theorem digitChar_toNat : ∀ n, n < 10 → (digitChar n).toNat = 48 + n := by decide

theorem digitChar_isDigit : ∀ n, n < 10 → isDigitChar (digitChar n) = true := by decide

theorem digitsVal_concat (xs : List Char) (c : Char) :
    digitsVal (xs ++ [c]) = digitsVal xs * 10 + (c.toNat - 48) := by
  simp [digitsVal, List.foldl_append]

theorem natDigitsF_spec :
    ∀ (f n : Nat), n < f →
      natDigitsF f n ≠ [] ∧ (∀ c ∈ natDigitsF f n, isDigitChar c = true) ∧
        digitsVal (natDigitsF f n) = n := by
  intro f
  induction f with
  | zero => intro n hn; omega
  | succ f ih =>
    intro n hn
    by_cases h10 : n < 10
    · simp only [natDigitsF, if_pos h10]
      refine ⟨by simp, ?_, ?_⟩
      · intro c hcm
        simp at hcm
        subst hcm
        exact digitChar_isDigit n h10
      · simp [digitsVal, digitChar_toNat n h10]
    · have hrec : n / 10 < f := by omega
      obtain ⟨hne, hdig, hval⟩ := ih (n / 10) hrec
      simp only [natDigitsF, if_neg h10]
      refine ⟨by simp, ?_, ?_⟩
      · intro c hcm
        rcases List.mem_append.mp hcm with h | h
        · exact hdig c h
        · simp at h
          subst h
          exact digitChar_isDigit _ (Nat.mod_lt _ (by norm_num))
      · rw [digitsVal_concat, hval, digitChar_toNat _ (Nat.mod_lt _ (by norm_num))]
        omega

theorem natDigits_ne_nil (n : Nat) : natDigits n ≠ [] :=
  (natDigitsF_spec (n + 1) n (by omega)).1

theorem natDigits_isDigit (n : Nat) : ∀ c ∈ natDigits n, isDigitChar c = true :=
  (natDigitsF_spec (n + 1) n (by omega)).2.1

theorem digitsVal_natDigits (n : Nat) : digitsVal (natDigits n) = n :=
  (natDigitsF_spec (n + 1) n (by omega)).2.2

theorem isDigitChar_bounds (c : Char) (h : isDigitChar c = true) :
    48 ≤ c.toNat ∧ c.toNat ≤ 57 := by
  simp only [isDigitChar, Bool.and_eq_true, decide_eq_true_eq] at h
  exact h

theorem isDigitChar_not_space (c : Char) (h : isDigitChar c = true) : isPySpace c = false := by
  obtain ⟨h1, h2⟩ := isDigitChar_bounds c h
  by_contra hq
  rw [Bool.not_eq_false] at hq
  simp only [isPySpace, Bool.or_eq_true, beq_iff_eq] at hq
  rcases hq with ((((h' | h') | h') | h') | h') | h' <;> (subst h'; exact absurd h1 (by decide))

theorem isDigitChar_ne_colon (c : Char) (h : isDigitChar c = true) : c ≠ ':' := by
  obtain ⟨h1, h2⟩ := isDigitChar_bounds c h
  intro hq
  subst hq
  simp at h2

theorem isDigitChar_ne_minus (c : Char) (h : isDigitChar c = true) : c ≠ '-' := by
  obtain ⟨h1, h2⟩ := isDigitChar_bounds c h
  intro hq
  subst hq
  simp at h1

theorem isDigitChar_ne_plus (c : Char) (h : isDigitChar c = true) : c ≠ '+' := by
  obtain ⟨h1, h2⟩ := isDigitChar_bounds c h
  intro hq
  subst hq
  simp at h1

theorem dropWhile_of_forall_false {p : Char → Bool} (l : List Char)
    (h : ∀ c ∈ l, p c = false) : l.dropWhile p = l := by
  cases l with
  | nil => rfl
  | cons x xs =>
    rw [List.dropWhile_cons, if_neg (by simp [h x (by simp)])]

theorem pyParseInt_natDigits (n : Nat) : pyParseInt (natDigits n) = some (n : Int) := by
  have hdig := natDigits_isDigit n
  have h1 : (natDigits n).dropWhile isPySpace = natDigits n :=
    dropWhile_of_forall_false _ (fun c hc => isDigitChar_not_space c (hdig c hc))
  have h2 : (natDigits n).reverse.dropWhile isPySpace = (natDigits n).reverse :=
    dropWhile_of_forall_false _ (fun c hc => isDigitChar_not_space c (hdig c (by simpa using hc)))
  rw [pyParseInt]
  rw [h1, h2, List.reverse_reverse]
  obtain ⟨c, rest, hcr⟩ : ∃ c rest, natDigits n = c :: rest := by
    cases hq : natDigits n with
    | nil => exact absurd hq (natDigits_ne_nil n)
    | cons c rest => exact ⟨c, rest, rfl⟩
  rw [hcr]
  have hcd : isDigitChar c = true := hdig c (by simp [hcr])
  dsimp only
  rw [if_neg (isDigitChar_ne_minus c hcd), if_neg (isDigitChar_ne_plus c hcd)]
  rw [if_pos (by
    rw [List.all_eq_true]
    intro x hx
    exact hdig x (by simp [hcr, hx]))]
  rw [← hcr, digitsVal_natDigits]

/-! ## Decoding the frame -/

theorem asciiFrame_assoc (n : Nat) (body : List Char) :
    asciiFrame n body = '<' :: '~' :: (natDigits n ++ ':' :: body) ++ ['~', '>'] := by
  simp [asciiFrame]

theorem lenPrefixPart_frame (n : Nat) (body : List Char) :
    lenPrefixPart (asciiFrame n body) = natDigits n := by
  rw [lenPrefixPart, asciiFrame_assoc, stripDelims_frame,
    findSub_prefix_colon _ _ (fun c hc => isDigitChar_ne_colon c (natDigits_isDigit n c hc))]
  exact List.take_left _ _

theorem bodyPart_frame (n : Nat) (body : List Char) :
    bodyPart (asciiFrame n body) = body := by
  rw [bodyPart, asciiFrame_assoc, stripDelims_frame,
    findSub_prefix_colon _ _ (fun c hc => isDigitChar_ne_colon c (natDigits_isDigit n c hc))]
  dsimp only
  rw [show natDigits n ++ ':' :: body = (natDigits n ++ [':']) ++ body by simp]
  rw [show (natDigits n).length + 1 = (natDigits n ++ [':']).length by simp]
  exact List.drop_left _ _

theorem asciiDecode_frame (n : Nat) (body : List Char) :
    asciiDecode (asciiFrame n body) = (fun bs => bs.take n) <$> decBody body := by
  rw [asciiDecode, lenPrefixPart_frame, pyParseInt_natDigits, bodyPart_frame]
  cases hd : decBody body with
  | none => rfl
  | some l =>
    simp only [Option.map_some, Option.some.injEq]
    rw [pyTake, if_pos (by positivity), Int.toNat_ofNat]

/-! ## decBody length and failure characterisation -/

theorem expandedLenF_congr (f : Nat) :
    ∀ (g : Nat) (cs : List Char),
      cs.length ≤ f → cs.length ≤ g → expandedLenF f cs = expandedLenF g cs := by
  induction f with
  | zero =>
    intro g cs hf _
    have : cs = [] := List.eq_nil_of_length_eq_zero (Nat.le_zero.mp hf)
    subst this
    simp [expandedLenF]
  | succ f ih =>
    intro g cs hf hg
    match cs with
    | [] => simp [expandedLenF]
    | c :: cs' =>
      obtain ⟨g', rfl⟩ : ∃ g'', g = g'' + 1 := ⟨g - 1, by simp at hg; omega⟩
      simp only [expandedLenF]
      by_cases hz : c = 'z'
      · simp only [if_pos hz]
        rw [ih g' cs' (by simp at hf; omega) (by simp at hg; omega)]
      · simp only [if_neg hz]
        by_cases hshort : (c :: cs').length < 5
        · rw [if_pos hshort, if_pos hshort]
        · rw [if_neg hshort, if_neg hshort,
            ih g' ((c :: cs').drop 5) (by simp at hf ⊢; omega) (by simp at hg ⊢; omega)]

theorem expandedLen_nil : expandedLen [] = 0 := rfl

theorem expandedLen_z (cs : List Char) : expandedLen ('z' :: cs) = 4 + expandedLen cs := by
  simp [expandedLen, expandedLenF]

theorem expandedLen_cons (c : Char) (cs : List Char) (hz : c ≠ 'z') :
    expandedLen (c :: cs) =
      if (c :: cs).length < 5 then (c :: cs).length - 1
      else 4 + expandedLen ((c :: cs).drop 5) := by
  simp only [expandedLen, List.length_cons]
  rw [expandedLenF]
  rw [if_neg hz]
  by_cases hshort : (c :: cs).length < 5
  · simp only [List.length_cons] at hshort
    rw [if_pos hshort, if_pos (by simp only [List.length_cons]; omega)]
    simp
  · simp only [List.length_cons] at hshort
    rw [if_neg hshort, if_neg (by simp only [List.length_cons]; omega)]
    rw [expandedLenF_congr cs.length ((c :: cs).drop 5).length ((c :: cs).drop 5)
      (by simp only [List.length_drop, List.length_cons]; omega) (le_refl _)]

theorem pack4_length (v : Nat) : (pack4 v).length = 4 := rfl

theorem decBody_length :
    ∀ (n : Nat) (cs : List Char), cs.length ≤ n → ∀ l, decBody cs = some l →
      l.length = expandedLen cs := by
  intro n
  induction n with
  | zero =>
    intro cs hlen l hl
    have : cs = [] := List.eq_nil_of_length_eq_zero (Nat.le_zero.mp hlen)
    subst this
    rw [decBody_nil] at hl
    cases hl
    rfl
  | succ n ih =>
    intro cs hlen l hl
    match cs with
    | [] =>
      rw [decBody_nil] at hl
      cases hl
      rfl
    | c :: cs' =>
      by_cases hz : c = 'z'
      · subst hz
        rw [decBody_z] at hl
        cases hr : decBody cs' with
        | none => rw [hr] at hl; cases hl
        | some r =>
          rw [hr] at hl
          cases hl
          rw [expandedLen_z]
          have := ih cs' (by simp at hlen; omega) r hr
          simp only [List.length_cons, this]
          omega
      · rw [decBody_cons c cs' hz] at hl
        dsimp only at hl
        rw [expandedLen_cons c cs' hz]
        by_cases hok : 0 ≤ val85 ((c :: cs').take 5 ++
            List.replicate (5 - ((c :: cs').take 5).length) 'u') ∧
            val85 ((c :: cs').take 5 ++ List.replicate (5 - ((c :: cs').take 5).length) 'u') <
              4294967296
        · rw [if_pos hok] at hl
          cases hr : decBody ((c :: cs').drop 5) with
          | none => rw [hr] at hl; cases hl
          | some r =>
            rw [hr] at hl
            cases hl
            have hrl := ih ((c :: cs').drop 5) (by simp at hlen ⊢; omega) r hr
            by_cases hshort : (c :: cs').length < 5
            · have hdrop : (c :: cs').drop 5 = [] := List.drop_eq_nil_of_le (by omega)
              rw [if_pos (by simp only [List.length_take]; omega), if_pos hshort]
              rw [hdrop, decBody_nil] at hr
              cases hr
              simp only [List.length_append, List.length_take, List.length_nil, pack4_length]
              omega
            · rw [if_neg (by simp only [List.length_take]; omega), if_neg hshort]
              simp only [List.length_append, pack4_length, hrl]
        · rw [if_neg hok] at hl
          cases hl

theorem scanOkF_congr (f : Nat) :
    ∀ (g : Nat) (cs : List Char), cs.length ≤ f → cs.length ≤ g → scanOkF f cs = scanOkF g cs := by
  induction f with
  | zero =>
    intro g cs hf _
    have : cs = [] := List.eq_nil_of_length_eq_zero (Nat.le_zero.mp hf)
    subst this
    simp [scanOkF]
  | succ f ih =>
    intro g cs hf hg
    match cs with
    | [] => simp [scanOkF]
    | c :: cs' =>
      obtain ⟨g', rfl⟩ : ∃ g'', g = g'' + 1 := ⟨g - 1, by simp at hg; omega⟩
      simp only [scanOkF]
      by_cases hz : c = 'z'
      · simp only [if_pos hz]
        rw [ih g' cs' (by simp at hf; omega) (by simp at hg; omega)]
      · simp only [if_neg hz]
        rw [ih g' ((c :: cs').drop 5) (by simp at hf ⊢; omega) (by simp at hg ⊢; omega)]

theorem scanOk_nil : scanOk [] = true := rfl

theorem scanOk_z (cs : List Char) : scanOk ('z' :: cs) = scanOk cs := by
  simp [scanOk, scanOkF]

theorem scanOk_cons (c : Char) (cs : List Char) (hz : c ≠ 'z') :
    scanOk (c :: cs) =
      (decide (0 ≤ val85 ((c :: cs).take 5 ++
          List.replicate (5 - ((c :: cs).take 5).length) 'u') ∧
        val85 ((c :: cs).take 5 ++ List.replicate (5 - ((c :: cs).take 5).length) 'u') <
          4294967296) && scanOk ((c :: cs).drop 5)) := by
  simp only [scanOk, List.length_cons]
  rw [scanOkF]
  rw [if_neg hz]
  rw [scanOkF_congr cs.length ((c :: cs).drop 5).length ((c :: cs).drop 5)
    (by simp only [List.length_drop, List.length_cons]; omega) (le_refl _)]

theorem decBody_none_iff :
    ∀ (n : Nat) (cs : List Char), cs.length ≤ n →
      (decBody cs = none ↔ scanOk cs = false) := by
  intro n
  induction n with
  | zero =>
    intro cs hlen
    have : cs = [] := List.eq_nil_of_length_eq_zero (Nat.le_zero.mp hlen)
    subst this
    simp [decBody_nil, scanOk_nil]
  | succ n ih =>
    intro cs hlen
    match cs with
    | [] => simp [decBody_nil, scanOk_nil]
    | c :: cs' =>
      by_cases hz : c = 'z'
      · subst hz
        rw [decBody_z, scanOk_z]
        rw [← ih cs' (by simp at hlen; omega)]
        cases decBody cs' <;> simp
      · rw [decBody_cons c cs' hz, scanOk_cons c cs' hz]
        dsimp only
        by_cases hok : 0 ≤ val85 ((c :: cs').take 5 ++
            List.replicate (5 - ((c :: cs').take 5).length) 'u') ∧
            val85 ((c :: cs').take 5 ++ List.replicate (5 - ((c :: cs').take 5).length) 'u') <
              4294967296
        · rw [if_pos hok, decide_eq_true hok, Bool.true_and]
          rw [← ih ((c :: cs').drop 5) (by simp at hlen ⊢; omega)]
          cases decBody ((c :: cs').drop 5) <;> simp
        · rw [if_neg hok, decide_eq_false hok, Bool.false_and]
          simp

/-! ## Claim theorems: ASCII85 family -/

/-- C1: for every byte sequence `b`, decoding the framed ASCII85 encoding
returns exactly `b`:
`asciiDecode (asciiEncode b) = some b` — the round trip of
`ASCII85SVGConverter._encode_ascii85` / `_decode_ascii85` of
`converters/ascii85_converter.py` restores the payload, including the
empty payload, payloads of length 1–4, payloads with arbitrary runs of
zero bytes, and payloads of any length. -/
theorem ascii85_decode_encode (data : List Nat) (hbytes : ∀ b ∈ data, b < 256) :
    asciiDecode (asciiEncode data) = some data := by
  rw [asciiEncode, asciiDecode_frame, decBody_encBody data.length data (le_refl _) hbytes]
  simp only [Option.map_some, Option.some.injEq]
  exact List.take_left _ _

/-- Witness for C1 at a concrete payload containing zero bytes and a short
final chunk. -/
theorem ascii85_decode_encode_witness :
    asciiDecode (asciiEncode [77, 0, 0, 0, 0, 255, 1]) = some [77, 0, 0, 0, 0, 255, 1] :=
  ascii85_decode_encode [77, 0, 0, 0, 0, 255, 1] (by decide)

/-- C10: for every frame `<~{n}:{body}~>` whose body decodes, the decoder
raises no error and returns `min n (expandedLen body)` bytes — the
length prefix is used only to truncate, never checked against the body,
so a prefix exceeding the expanded byte count silently yields fewer
than `n` bytes. -/
theorem ascii85_prefix_unchecked (n : Nat) (body : List Char) (l : List Nat)
    (hdec : decBody body = some l) :
    asciiDecode (asciiFrame n body) = some (l.take n) ∧
      (l.take n).length = min n (expandedLen body) := by
  constructor
  · rw [asciiDecode_frame, hdec]
    rfl
  · rw [List.length_take, decBody_length body.length body (le_refl _) l hdec]

/-- Witness for C10: prefix 10 over a body that expands to only 4 bytes
decodes without error to those 4 bytes. -/
theorem ascii85_prefix_unchecked_witness :
    asciiDecode (asciiFrame 10 "!!!!!".toList) = some (([0, 0, 0, 0] : List Nat).take 10) ∧
      (([0, 0, 0, 0] : List Nat).take 10).length = min 10 (expandedLen "!!!!!".toList) :=
  ascii85_prefix_unchecked 10 "!!!!!".toList [0, 0, 0, 0] (by decide)

/-- C4 counterexample: the claim says decoding fails with a `DecodingError`
whenever the `<~...~>` delimiters are missing or a body character lies
outside `[33, 117]`.  The code does neither check: `"4:!!!!!"` has no
delimiters yet decodes to four zero bytes, and `"<~0:!!!!v~>"` contains
`'v'` (code point 118, outside the digit range) yet decodes without
error, because `'v'` only contributes to a group value that still fits
in 32 bits. -/
theorem ascii85_decode_error_counterexample :
    asciiDecode "4:!!!!!".toList = some [0, 0, 0, 0] ∧
      asciiDecode "<~0:!!!!v~>".toList = some [] := by
  constructor <;> decide

/-- C4 amended: decoding fails (and `extract` re-raises the exception as a
`DecodingError`) exactly when the decimal length prefix fails to parse
as an integer, or when some scanned 5-character group (after
`z`-expansion and `u`-padding) has a base-85 value outside `[0, 2^32)`
so that `struct.pack('>I')` raises.  Missing delimiters are tolerated,
and characters outside `[33, 117]` cause a failure only through such a
group value. -/
theorem ascii85_decode_error_iff (cs : List Char) :
    asciiDecode cs = none ↔
      pyParseInt (lenPrefixPart cs) = none ∨ scanOk (bodyPart cs) = false := by
  rw [asciiDecode]
  cases hp : pyParseInt (lenPrefixPart cs) with
  | none => simp
  | some n =>
    rw [← decBody_none_iff (bodyPart cs).length (bodyPart cs) (le_refl _)]
    cases decBody (bodyPart cs) <;> simp

/-- Witness for C4 (amended): a non-numeric length prefix fails, and an
overflowing group (`uuuuu`, value `85^5 - 1 ≥ 2^32`) fails. -/
theorem ascii85_decode_error_iff_witness :
    asciiDecode "<~xy:!!!!!~>".toList = none ∧ asciiDecode "<~4:uuuuu~>".toList = none := by
  constructor
  · exact (ascii85_decode_error_iff "<~xy:!!!!!~>".toList).mpr (by left; decide)
  · exact (ascii85_decode_error_iff "<~4:uuuuu~>".toList).mpr (by right; decide)

/-! ## Claim theorems: sniffer and validator -/

/-- C8: `_detect_format` checks its signatures in a fixed order with first
match winning; any container holding the polyglot boundary pattern is
classified `polyglot`, never `ascii85`, even when the ascii85 marker is
also present. -/
theorem detect_polyglot_precedence (content : List Char)
    (hp : containsSub content "POLYGLOT_BOUNDARY_".toList = true)
    (_ha : containsSub content "encoding=\"ascii85\"".toList = true) :
    detectFormat content = some FormatTag.polyglot := by
  rw [detectFormat, if_pos hp]

/-- Witness for C8 on a document containing both signatures. -/
theorem detect_polyglot_precedence_witness :
    detectFormat "<svg>POLYGLOT_BOUNDARY_ab encoding=\"ascii85\"</svg>".toList =
      some FormatTag.polyglot :=
  detect_polyglot_precedence _ (by decide) (by decide)

/-- C2 (code bug): the validator's own ascii85 codec (`ascii85.py`, the
module `IntegrityValidator` instantiates) has no length frame, so a
one-byte payload decodes to its four-byte zero-padded completion and
`validate_integrity` reports `size_match = false`,
`checksum_match = false` and `data_integrity_valid = false` — not the
all-true report the claim requires. -/
theorem validator_ascii85_roundtrip_fails :
    validateAscii85RoundTrip [1] = ⟨true, false, false, false⟩ ∧
      oldAsciiDecode (oldAsciiEncode [1]) = some [1, 0, 0, 0] := by
  constructor <;> decide

/-! ## Base64 round trip -/

theorem b64Alphabet_length : b64Alphabet.length = 64 := by decide

theorem b64Val_b64Char : ∀ n, n < 64 → b64Val (b64Char n) = some n := by decide

theorem b64Char_ne_pad : ∀ n, n < 64 → b64Char n ≠ '=' := by decide

theorem b64Char_not_space_lt : ∀ n, n < 64 → isPySpace (b64Char n) = false := by decide

theorem b64Char_not_space (n : Nat) : isPySpace (b64Char n) = false := by
  by_cases h : n < 64
  · exact b64Char_not_space_lt n h
  · rw [b64Char, List.getD_eq_default]
    · decide
    · rw [b64Alphabet_length]
      omega

theorem mem_b64encode_not_space :
    ∀ (data : List Nat), ∀ c ∈ b64encode data, isPySpace c = false
  | [] => by simp [b64encode]
  | [a] => by
    intro c hc
    simp only [b64encode, List.mem_cons, List.not_mem_nil, or_false] at hc
    rcases hc with rfl | rfl | rfl | rfl
    · exact b64Char_not_space _
    · exact b64Char_not_space _
    · decide
    · decide
  | [a, b] => by
    intro c hc
    simp only [b64encode, List.mem_cons, List.not_mem_nil, or_false] at hc
    rcases hc with rfl | rfl | rfl | rfl
    · exact b64Char_not_space _
    · exact b64Char_not_space _
    · exact b64Char_not_space _
    · decide
  | a :: b :: c' :: rest => by
    intro c hc
    simp only [b64encode, List.mem_cons] at hc
    rcases hc with rfl | rfl | rfl | rfl | hm
    · exact b64Char_not_space _
    · exact b64Char_not_space _
    · exact b64Char_not_space _
    · exact b64Char_not_space _
    · exact mem_b64encode_not_space rest c hm

theorem b64_roundtrip :
    ∀ (data : List Nat), (∀ x ∈ data, x < 256) → b64decodeAux (b64encode data) = some data
  | [] => fun _ => rfl
  | [a] => fun h => by
    have ha : a < 256 := h a (by simp)
    show b64decodeAux (b64Char (a / 4) :: b64Char (a % 4 * 16) :: '=' :: '=' :: []) = some [a]
    rw [b64decodeAux]
    rw [b64Val_b64Char _ (by omega), b64Val_b64Char _ (by omega)]
    simp only [Option.bind_eq_bind, Option.some_bind]
    rw [if_pos trivial]
    have : a / 4 * 4 + a % 4 * 16 / 16 = a := by omega
    rw [this]
    rfl
  | [a, b] => fun h => by
    have ha : a < 256 := h a (by simp)
    have hb : b < 256 := h b (by simp)
    show b64decodeAux
        (b64Char (a / 4) :: b64Char (a % 4 * 16 + b / 16) :: b64Char (b % 16 * 4) :: '=' :: []) =
      some [a, b]
    rw [b64decodeAux]
    rw [b64Val_b64Char _ (by omega), b64Val_b64Char _ (by omega)]
    simp only [Option.bind_eq_bind, Option.some_bind]
    rw [if_pos ⟨trivial, trivial⟩, if_neg (b64Char_ne_pad _ (by omega))]
    rw [b64Val_b64Char _ (by omega)]
    simp only [Option.some_bind]
    have h1 : a / 4 * 4 + (a % 4 * 16 + b / 16) / 16 = a := by omega
    have h2 : (a % 4 * 16 + b / 16) % 16 * 16 + b % 16 * 4 / 4 = b := by omega
    rw [h1, h2]
    rfl
  | a :: b :: c :: rest => fun h => by
    have ha : a < 256 := h a (by simp)
    have hb : b < 256 := h b (by simp)
    have hc : c < 256 := h c (by simp)
    have hrest : ∀ x ∈ rest, x < 256 := fun x hx => h x (by simp [hx])
    show b64decodeAux
        (b64Char (a / 4) :: b64Char (a % 4 * 16 + b / 16) :: b64Char (b % 16 * 4 + c / 64) ::
          b64Char (c % 64) :: b64encode rest) = some (a :: b :: c :: rest)
    rw [b64decodeAux]
    rw [b64Val_b64Char _ (by omega), b64Val_b64Char _ (by omega)]
    simp only [Option.bind_eq_bind, Option.some_bind]
    rw [if_neg (fun hq => b64Char_ne_pad (c % 64) (by omega) hq.2)]
    rw [b64Val_b64Char _ (by omega), b64Val_b64Char _ (by omega)]
    simp only [Option.some_bind]
    rw [b64_roundtrip rest hrest]
    simp only [Option.some_bind]
    have h1 : a / 4 * 4 + (a % 4 * 16 + b / 16) / 16 = a := by omega
    have h2 : (a % 4 * 16 + b / 16) % 16 * 16 + (b % 16 * 4 + c / 64) / 4 = b := by omega
    have h3 : (b % 16 * 4 + c / 64) % 4 * 64 + c % 64 = c := by omega
    rw [h1, h2, h3]
    rfl

/-! ## Line wrapping is transparent -/

theorem chunksOfF_flatten {α : Type} :
    ∀ (f w : Nat) (s : List α), 1 ≤ w → s.length ≤ f → (chunksOfF f w s).flatten = s := by
  intro f
  induction f with
  | zero =>
    intro w s _ hlen
    have : s = [] := List.eq_nil_of_length_eq_zero (Nat.le_zero.mp hlen)
    subst this
    simp [chunksOfF]
  | succ f ih =>
    intro w s hw hlen
    match s with
    | [] => simp [chunksOfF]
    | x :: s' =>
      simp only [chunksOfF, List.flatten_cons]
      rw [ih w ((x :: s').drop w) hw (by simp at hlen ⊢; omega)]
      exact List.take_append_drop _ _

theorem filter_joinNL (p : Char → Bool) (hnl : p '\n' = false) :
    ∀ (parts : List (List Char)), (joinNL parts).filter p = parts.flatten.filter p
  | [] => rfl
  | [l] => by simp [joinNL]
  | l :: l' :: ls => by
    simp only [joinNL, List.flatten_cons, List.filter_append, List.filter_cons, hnl]
    rw [show (joinNL (l' :: ls)).filter p = ((l' :: ls).flatten).filter p from
      filter_joinNL p hnl (l' :: ls)]
    simp [List.filter_append]

/-- C3: for every payload and every positive wrap width, decoding the
comment encoding returns exactly the payload:
`_decode_from_svg_comment (_encode_for_svg_comment b) = some b` — the
whitespace inserted by the 80-character line wrapping (generalised here
to any width `w > 0`) is stripped before base64 decoding, so the result
is independent of the wrap width.  The boundary token plays no role in
these two functions: it only delimits the surrounding comment. -/
theorem polyglot_comment_roundtrip (w : Nat) (data : List Nat) (hw : 0 < w)
    (hbytes : ∀ x ∈ data, x < 256) :
    decodeFromSvgComment (encodeForSvgCommentW w data) = some data := by
  rw [decodeFromSvgComment, encodeForSvgCommentW, wrapLines]
  rw [filter_joinNL _ (by decide)]
  rw [chunksOfF_flatten _ w _ hw (le_refl _)]
  rw [List.filter_eq_self.mpr (fun c hc => by
    simp only [Bool.not_eq_eq_eq_not, Bool.not_true]
    exact mem_b64encode_not_space data c hc)]
  exact b64_roundtrip data hbytes

/-- Witness for C3 at the source's fixed width 80 and the 256-byte payload
`[0, 1, ..., 255]` named by the claim. -/
theorem polyglot_comment_roundtrip_witness :
    decodeFromSvgComment (encodeForSvgComment (List.range 256)) = some (List.range 256) :=
  polyglot_comment_roundtrip 80 (List.range 256) (by decide)
    (fun x hx => List.mem_range.mp hx)

/-! ## Claim theorems: polyglot extraction and boundary -/

/-- C5 counterexample: the claim says `extract` fails with a
`DecodingError` ("section not found") when the markers are absent; the
code instead prints a message and returns `False` (the `noData`
outcome), raising nothing. -/
theorem polyglot_extract_counterexample :
    polyglotExtract "<svg>plain</svg>".toList = PolyglotExtractResult.noData ∧
      polyglotExtract "<svg>plain</svg>".toList ≠ PolyglotExtractResult.decodeFailed := by
  constructor <;> decide

/-- C5 amended: when the start marker `<!--MP4_DATA\n` is absent,
`extract` returns `False` after printing "No MP4 data found in SVG"
(outcome `noData`), and when no end marker `\nMP4_DATA-->` occurs at or
after the start index it returns `False` after printing "Malformed MP4
data in SVG" (outcome `malformed`); no `DecodingError` is raised in
either case — `DecodingError` is reserved for exceptions thrown while
decoding the section body. -/
theorem polyglot_extract_missing_markers (content : List Char) :
    (findSub content mp4StartMarker = none → polyglotExtract content = .noData) ∧
      (∀ i, findSub content mp4StartMarker = some i →
        findSubFrom content mp4EndMarker i = none → polyglotExtract content = .malformed) := by
  constructor
  · intro h
    simp [polyglotExtract, h]
  · intro i h1 h2
    simp [polyglotExtract, h1, h2]

/-- Witness for C5 (amended): a document with no start marker yields
`noData`; one with a start marker but no end marker yields
`malformed`. -/
theorem polyglot_extract_missing_markers_witness :
    polyglotExtract "x".toList = .noData ∧
      polyglotExtract "a<!--MP4_DATA\nbb".toList = .malformed :=
  ⟨(polyglot_extract_missing_markers _).1 (by decide),
    (polyglot_extract_missing_markers _).2 1 (by decide) (by decide)⟩

theorem leadsWith_append (p q : List Char) : leadsWith p (p ++ q) = true := by
  induction p with
  | nil => rfl
  | cons c cs ih => simp [leadsWith, ih]

/-- C9 counterexample: the claim says each convert invocation embeds a
boundary token derived from randomness drawn during that invocation.
In the code the token is fixed in `__init__`: with the instance built
from one entropy draw, two convert calls with different payloads both
embed the identical instance token, and no randomness is consumed by
`convert` at all (its output is a pure function of the instance and the
payload). -/
theorem polyglot_boundary_counterexample :
    leadsWith "<!--POLYGLOT_BOUNDARY_0f1e2d3c\n".toList
        (polyglotSectionText (mkPolyglotState (fun _ => "0f1e2d3c".toList) (List.range 16))
          [0]) = true ∧
      leadsWith "<!--POLYGLOT_BOUNDARY_0f1e2d3c\n".toList
        (polyglotSectionText (mkPolyglotState (fun _ => "0f1e2d3c".toList) (List.range 16))
          [1, 2, 3]) = true ∧
      (mkPolyglotState (fun _ => "0f1e2d3c".toList) (List.range 16)).boundary =
        "POLYGLOT_BOUNDARY_0f1e2d3c".toList := by
  refine ⟨by decide, by decide, by decide⟩

/-- C9 amended: the boundary token is generated once per converter
instance, in `__init__`, as `POLYGLOT_BOUNDARY_` followed by the hex
hash of 16 random bytes; every `convert` call on that instance reuses
the instance's token unchanged (the section text of every call starts
with `<!--` followed by that same token), and the token is used only as
a delimiter. -/
theorem polyglot_boundary_per_instance (hexHash : List Nat → List Char) (entropy : List Nat)
    (d1 d2 : List Nat) :
    (mkPolyglotState hexHash entropy).boundary =
        "POLYGLOT_BOUNDARY_".toList ++ hexHash entropy ∧
      leadsWith ("<!--".toList ++ (mkPolyglotState hexHash entropy).boundary)
        (polyglotSectionText (mkPolyglotState hexHash entropy) d1) = true ∧
      leadsWith ("<!--".toList ++ (mkPolyglotState hexHash entropy).boundary)
        (polyglotSectionText (mkPolyglotState hexHash entropy) d2) = true := by
  refine ⟨rfl, ?_, ?_⟩ <;>
    · rw [show ∀ d, polyglotSectionText (mkPolyglotState hexHash entropy) d =
          ("<!--".toList ++ (mkPolyglotState hexHash entropy).boundary) ++
            ("\n<!--MP4_DATA\n".toList ++ encodeForSvgComment d ++ "\nMP4_DATA-->\n".toList ++
              (mkPolyglotState hexHash entropy).boundary ++ "-->".toList)
        from fun d => by simp [polyglotSectionText]]
      exact leadsWith_append _ _

/-! ## Chunk splitting lemmas -/

theorem chunksOfF_length_le {α : Type} :
    ∀ (f w : Nat) (s : List α), 1 ≤ w → s.length ≤ f → ∀ c ∈ chunksOfF f w s, c.length ≤ w := by
  intro f
  induction f with
  | zero =>
    intro w s _ hlen c hc
    have : s = [] := List.eq_nil_of_length_eq_zero (Nat.le_zero.mp hlen)
    subst this
    simp [chunksOfF] at hc
  | succ f ih =>
    intro w s hw hlen c hc
    match s with
    | [] => simp [chunksOfF] at hc
    | x :: s' =>
      simp only [chunksOfF, List.mem_cons] at hc
      rcases hc with rfl | hc
      · simp only [List.length_take]
        omega
      · exact ih w ((x :: s').drop w) hw (by simp at hlen ⊢; omega) c hc

theorem chunksOfF_ne_nil {α : Type} (f w : Nat) (x : α) (s : List α) :
    chunksOfF (f + 1) w (x :: s) ≠ [] := by
  simp [chunksOfF]

theorem chunksOfF_cons {α : Type} (f w : Nat) (x : α) (s : List α) :
    chunksOfF (f + 1) w (x :: s) = (x :: s).take w :: chunksOfF f w ((x :: s).drop w) := rfl

theorem chunksOfF_dropLast_length {α : Type} :
    ∀ (f w : Nat) (s : List α), 1 ≤ w → s.length ≤ f →
      ∀ c ∈ (chunksOfF f w s).dropLast, c.length = w := by
  intro f
  induction f with
  | zero =>
    intro w s _ hlen c hc
    have : s = [] := List.eq_nil_of_length_eq_zero (Nat.le_zero.mp hlen)
    subst this
    simp [chunksOfF] at hc
  | succ f ih =>
    intro w s hw hlen c hc
    match s with
    | [] => simp [chunksOfF] at hc
    | x :: s' =>
      by_cases hrest : (x :: s').drop w = []
      · simp only [chunksOfF, hrest] at hc
        simp at hc
      · obtain ⟨y, t, hyt⟩ : ∃ y t, (x :: s').drop w = y :: t := by
          cases hq : (x :: s').drop w with
          | nil => exact absurd hq hrest
          | cons y t => exact ⟨y, t, rfl⟩
        obtain ⟨f', rfl⟩ : ∃ f'', f = f'' + 1 := by
          refine ⟨f - 1, ?_⟩
          have : ((x :: s').drop w).length ≤ f := by simp at hlen ⊢; omega
          rw [hyt] at this
          simp at this
          omega
        rw [chunksOfF_cons] at hc
        rw [List.dropLast_cons_of_ne_nil (by rw [hyt]; exact chunksOfF_ne_nil f' w y t)] at hc
        rcases List.mem_cons.mp hc with rfl | hc
        · have hwlt : w < (x :: s').length := by
            by_contra hq
            exact hrest (List.drop_eq_nil_of_le (by omega))
          simp only [List.length_take]
          omega
        · exact ih w ((x :: s').drop w) hw (by simp at hlen ⊢; omega) c hc

theorem chunkSplit_flatten (size : Nat) (payload : List Nat) (hsize : 0 < size) :
    (chunkSplit size payload).flatten = payload :=
  chunksOfF_flatten _ _ _ hsize (le_refl _)

/-! ## Envelope structure lemmas -/

theorem mkEnvelopes_length (digest : List Nat → List Char) (size : Nat) (payload : List Nat) :
    (mkEnvelopes digest size payload).length = (chunkSplit size payload).length := by
  simp [mkEnvelopes]

theorem mkEnvelopes_map_idx (digest : List Nat → List Char) (size : Nat) (payload : List Nat) :
    (mkEnvelopes digest size payload).map ChunkEnvelope.idx =
      List.range (chunkSplit size payload).length := by
  simp only [mkEnvelopes, List.map_map]
  rw [show (ChunkEnvelope.idx ∘ fun p : Nat × List Nat =>
      (⟨p.1, (chunkSplit size payload).length, digest p.2, b64encode p.2⟩ : ChunkEnvelope)) =
    Prod.fst from rfl]
  exact List.enum_map_fst _

theorem mkEnvelopes_map_checksum (digest : List Nat → List Char) (size : Nat)
    (payload : List Nat) :
    (mkEnvelopes digest size payload).map ChunkEnvelope.checksum =
      (chunkSplit size payload).map digest := by
  simp only [mkEnvelopes, List.map_map]
  rw [show (ChunkEnvelope.checksum ∘ fun p : Nat × List Nat =>
      (⟨p.1, (chunkSplit size payload).length, digest p.2, b64encode p.2⟩ : ChunkEnvelope)) =
    (digest ∘ Prod.snd) from rfl]
  rw [← List.map_map, List.enum_map_snd]

theorem mkEnvelopes_map_data (digest : List Nat → List Char) (size : Nat)
    (payload : List Nat) :
    (mkEnvelopes digest size payload).map ChunkEnvelope.data =
      (chunkSplit size payload).map b64encode := by
  simp only [mkEnvelopes, List.map_map]
  rw [show (ChunkEnvelope.data ∘ fun p : Nat × List Nat =>
      (⟨p.1, (chunkSplit size payload).length, digest p.2, b64encode p.2⟩ : ChunkEnvelope)) =
    (b64encode ∘ Prod.snd) from rfl]
  rw [← List.map_map, List.enum_map_snd]

theorem mkEnvelopes_total (digest : List Nat → List Char) (size : Nat) (payload : List Nat) :
    ∀ e ∈ mkEnvelopes digest size payload, e.total = (chunkSplit size payload).length := by
  intro e he
  simp only [mkEnvelopes, List.mem_map] at he
  obtain ⟨p, _, rfl⟩ := he
  rfl

theorem chunk_bytes_bound (size : Nat) (payload : List Nat) (hsize : 0 < size)
    (hbytes : ∀ x ∈ payload, x < 256) :
    ∀ c ∈ chunkSplit size payload, ∀ x ∈ c, x < 256 := by
  intro c hc x hx
  refine hbytes x ?_
  rw [← chunkSplit_flatten size payload hsize]
  exact List.mem_flatten.mpr ⟨c, hc, hx⟩

theorem mkEnvelopes_decoded (digest : List Nat → List Char) (size : Nat) (payload : List Nat)
    (hsize : 0 < size) (hbytes : ∀ x ∈ payload, x < 256) :
    (mkEnvelopes digest size payload).map (fun e => (b64decodeAux e.data).getD []) =
      chunkSplit size payload := by
  have h1 : (mkEnvelopes digest size payload).map (fun e => (b64decodeAux e.data).getD []) =
      ((mkEnvelopes digest size payload).map ChunkEnvelope.data).map
        (fun d => (b64decodeAux d).getD []) := by
    rw [List.map_map]
    rfl
  rw [h1, mkEnvelopes_map_data, List.map_map]
  have h2 : ∀ c ∈ chunkSplit size payload,
      ((fun d => (b64decodeAux d).getD []) ∘ b64encode) c = id c := by
    intro c hc
    simp only [Function.comp_apply, id_eq]
    rw [b64_roundtrip c (chunk_bytes_bound size payload hsize hbytes c hc)]
    rfl
  rw [List.map_congr_left h2, List.map_id]

/-! ## Claim theorems: chunk envelopes -/

/-- C6: `QRCodeSVGConverter.convert` splits the payload into consecutive
chunks of at most `chunk_size` bytes (only the last may be shorter,
their concatenation is the payload) and produces exactly one envelope
per chunk whose `idx` runs densely from 0, whose `total` is the chunk
count, whose `checksum` is the 8-hex-character digest of that chunk,
and whose `data` is the base64 encoding of that chunk; base64-decoding
the `data` fields in ascending `idx` order (the order produced) and
concatenating reconstructs the payload.  The digest
(`md5(chunk).hexdigest()[:8]`, an external hashlib call) is passed as a
function assumed to return 8 hex characters. -/
theorem chunk_envelope_encode (digest : List Nat → List Char) (size : Nat) (payload : List Nat)
    (hsize : 0 < size) (hbytes : ∀ x ∈ payload, x < 256)
    (hdigest : ∀ c, (digest c).length = 8 ∧ ∀ ch ∈ digest c, isHexChar ch = true) :
    (∀ c ∈ chunkSplit size payload, c.length ≤ size) ∧
      (∀ c ∈ (chunkSplit size payload).dropLast, c.length = size) ∧
      (chunkSplit size payload).flatten = payload ∧
      (mkEnvelopes digest size payload).length = (chunkSplit size payload).length ∧
      (mkEnvelopes digest size payload).map ChunkEnvelope.idx =
        List.range (chunkSplit size payload).length ∧
      (∀ e ∈ mkEnvelopes digest size payload, e.total = (chunkSplit size payload).length) ∧
      (mkEnvelopes digest size payload).map ChunkEnvelope.checksum =
        (chunkSplit size payload).map digest ∧
      (∀ e ∈ mkEnvelopes digest size payload,
        e.checksum.length = 8 ∧ ∀ ch ∈ e.checksum, isHexChar ch = true) ∧
      (mkEnvelopes digest size payload).map ChunkEnvelope.data =
        (chunkSplit size payload).map b64encode ∧
      ((mkEnvelopes digest size payload).map (fun e => (b64decodeAux e.data).getD [])).flatten =
        payload := by
  refine ⟨chunksOfF_length_le _ size payload hsize (le_refl _),
    chunksOfF_dropLast_length _ size payload hsize (le_refl _),
    chunkSplit_flatten size payload hsize,
    mkEnvelopes_length digest size payload,
    mkEnvelopes_map_idx digest size payload,
    mkEnvelopes_total digest size payload,
    mkEnvelopes_map_checksum digest size payload,
    ?_,
    mkEnvelopes_map_data digest size payload,
    ?_⟩
  · intro e he
    simp only [mkEnvelopes, List.mem_map] at he
    obtain ⟨p, _, rfl⟩ := he
    exact hdigest p.2
  · rw [mkEnvelopes_decoded digest size payload hsize hbytes,
      chunkSplit_flatten size payload hsize]

/-- Witness for C6 with a constant 8-hex digest, chunk size 2 and a 3-byte
payload (two chunks, the last shorter). -/
theorem chunk_envelope_encode_witness :
    (∀ c ∈ chunkSplit 2 [1, 2, 3], c.length ≤ 2) ∧
      (∀ c ∈ (chunkSplit 2 [1, 2, 3]).dropLast, c.length = 2) ∧
      (chunkSplit 2 [1, 2, 3]).flatten = [1, 2, 3] ∧
      (mkEnvelopes (fun _ => "00000000".toList) 2 [1, 2, 3]).length =
        (chunkSplit 2 [1, 2, 3]).length ∧
      (mkEnvelopes (fun _ => "00000000".toList) 2 [1, 2, 3]).map ChunkEnvelope.idx =
        List.range (chunkSplit 2 [1, 2, 3]).length ∧
      (∀ e ∈ mkEnvelopes (fun _ => "00000000".toList) 2 [1, 2, 3],
        e.total = (chunkSplit 2 [1, 2, 3]).length) ∧
      (mkEnvelopes (fun _ => "00000000".toList) 2 [1, 2, 3]).map ChunkEnvelope.checksum =
        (chunkSplit 2 [1, 2, 3]).map (fun _ => "00000000".toList) ∧
      (∀ e ∈ mkEnvelopes (fun _ => "00000000".toList) 2 [1, 2, 3],
        e.checksum.length = 8 ∧ ∀ ch ∈ e.checksum, isHexChar ch = true) ∧
      (mkEnvelopes (fun _ => "00000000".toList) 2 [1, 2, 3]).map ChunkEnvelope.data =
        (chunkSplit 2 [1, 2, 3]).map b64encode ∧
      ((mkEnvelopes (fun _ => "00000000".toList) 2 [1, 2, 3]).map
        (fun e => (b64decodeAux e.data).getD [])).flatten = [1, 2, 3] :=
  chunk_envelope_encode (fun _ => "00000000".toList) 2 [1, 2, 3] (by decide) (by decide)
    (fun _ => ⟨rfl, by
      show ∀ ch ∈ "00000000".toList, isHexChar ch = true
      decide⟩)

/-! ## Sorting and verification-scan lemmas -/

theorem insertByIdx_perm (e : ChunkEnvelope) (l : List ChunkEnvelope) :
    (insertByIdx e l).Perm (e :: l) := by
  induction l with
  | nil => exact List.Perm.refl _
  | cons x xs ih =>
    rw [insertByIdx]
    by_cases h : e.idx ≤ x.idx
    · rw [if_pos h]
    · rw [if_neg h]
      exact (List.Perm.cons x ih).trans (List.Perm.swap e x xs)

theorem sortByIdx_perm (l : List ChunkEnvelope) : (sortByIdx l).Perm l := by
  induction l with
  | nil => exact List.Perm.refl _
  | cons e es ih =>
    rw [sortByIdx]
    exact (insertByIdx_perm e (sortByIdx es)).trans (List.Perm.cons e ih)

theorem insertByIdx_sorted (e : ChunkEnvelope) (l : List ChunkEnvelope)
    (h : l.Sorted (fun a b => a.idx ≤ b.idx)) :
    (insertByIdx e l).Sorted (fun a b => a.idx ≤ b.idx) := by
  induction l with
  | nil => simp [insertByIdx]
  | cons x xs ih =>
    rw [List.sorted_cons] at h
    rw [insertByIdx]
    by_cases hle : e.idx ≤ x.idx
    · rw [if_pos hle, List.sorted_cons]
      refine ⟨?_, List.sorted_cons.mpr h⟩
      intro b hb
      rcases List.mem_cons.mp hb with rfl | hb
      · exact hle
      · exact le_trans hle (h.1 b hb)
    · rw [if_neg hle, List.sorted_cons]
      refine ⟨?_, ih h.2⟩
      intro b hb
      rcases List.mem_cons.mp ((insertByIdx_perm e xs).mem_iff.mp hb) with rfl | hb
      · omega
      · exact h.1 b hb

theorem sortByIdx_sorted (l : List ChunkEnvelope) :
    (sortByIdx l).Sorted (fun a b => a.idx ≤ b.idx) := by
  induction l with
  | nil => simp [sortByIdx]
  | cons e es ih => exact insertByIdx_sorted e (sortByIdx es) ih

theorem sortByIdx_of_sorted (l : List ChunkEnvelope)
    (h : l.Sorted (fun a b => a.idx ≤ b.idx)) : sortByIdx l = l := by
  induction l with
  | nil => rfl
  | cons e es ih =>
    rw [List.sorted_cons] at h
    rw [sortByIdx, ih h.2]
    cases es with
    | nil => rfl
    | cons x xs =>
      rw [insertByIdx, if_pos (h.1 x (by simp))]

theorem checkChunks_eq_none_iff (digest : List Nat → List Char) (l : List ChunkEnvelope) :
    checkChunks digest l = none ↔ ∀ e ∈ l, envFails digest e = false := by
  induction l with
  | nil => simp [checkChunks]
  | cons e es ih =>
    by_cases hf : envFails digest e = true
    · rw [checkChunks, if_pos hf]
      constructor
      · intro h
        exact absurd h (by simp)
      · intro hall
        have := hall e (by simp)
        rw [hf] at this
        cases this
    · rw [checkChunks, if_neg hf, ih]
      constructor
      · intro h x hx
        rcases List.mem_cons.mp hx with rfl | hx
        · exact Bool.not_eq_true _ ▸ Bool.eq_false_iff.mpr hf
        · exact h x hx
      · intro h x hx
        exact h x (by simp [hx])

theorem checkChunks_some_split (digest : List Nat → List Char) :
    ∀ (l : List ChunkEnvelope) (j : Nat), checkChunks digest l = some j →
      ∃ pre e suf, l = pre ++ e :: suf ∧ (∀ x ∈ pre, envFails digest x = false) ∧
        envFails digest e = true ∧ e.idx = j := by
  intro l
  induction l with
  | nil => intro j h; simp [checkChunks] at h
  | cons e es ih =>
    intro j h
    by_cases hf : envFails digest e = true
    · rw [checkChunks, if_pos hf] at h
      cases h
      exact ⟨[], e, es, rfl, by simp, hf, rfl⟩
    · rw [checkChunks, if_neg hf] at h
      obtain ⟨pre, e', suf, rfl, hpre, he', hj⟩ := ih j h
      refine ⟨e :: pre, e', suf, rfl, ?_, he', hj⟩
      intro x hx
      rcases List.mem_cons.mp hx with rfl | hx
      · exact Bool.eq_false_iff.mpr hf
      · exact hpre x hx

theorem headTotal_of (envs : List ChunkEnvelope) (n : Nat) (hlen : envs.length = n)
    (htot : ∀ e ∈ envs, e.total = n) : headTotal envs = n := by
  cases envs with
  | nil =>
    simp at hlen
    simp [headTotal, ← hlen]
  | cons e es =>
    show e.total = n
    exact htot e (by simp)

theorem snd_mem_of_mem_enum {α : Type} (l : List α) (p : Nat × α) (hp : p ∈ l.enum) :
    p.2 ∈ l := by
  have := List.mem_map_of_mem Prod.snd hp
  rwa [List.enum_map_snd] at this

theorem mkEnvelopes_headTotal (digest : List Nat → List Char) (size : Nat)
    (payload : List Nat) :
    headTotal (mkEnvelopes digest size payload) = (chunkSplit size payload).length :=
  headTotal_of _ _ (mkEnvelopes_length digest size payload)
    (mkEnvelopes_total digest size payload)

theorem mkEnvelopes_count (digest : List Nat → List Char) (size : Nat) (payload : List Nat)
    (i : Nat) (hi : i < (chunkSplit size payload).length) :
    ((mkEnvelopes digest size payload).map ChunkEnvelope.idx).count i = 1 := by
  rw [mkEnvelopes_map_idx]
  exact List.count_eq_one_of_mem (List.nodup_range _) (List.mem_range.mpr hi)

theorem mkEnvelopes_no_failure (digest : List Nat → List Char) (size : Nat)
    (payload : List Nat) (hsize : 0 < size) (hbytes : ∀ x ∈ payload, x < 256) :
    ∀ e ∈ mkEnvelopes digest size payload, envFails digest e = false := by
  intro e he
  simp only [mkEnvelopes, List.mem_map] at he
  obtain ⟨p, hp, rfl⟩ := he
  have hc : p.2 ∈ chunkSplit size payload := snd_mem_of_mem_enum _ p hp
  rw [envFails]
  dsimp only
  rw [b64_roundtrip p.2 (chunk_bytes_bound size payload hsize hbytes p.2 hc)]
  simp

theorem mkEnvelopes_sorted (digest : List Nat → List Char) (size : Nat) (payload : List Nat) :
    sortByIdx (mkEnvelopes digest size payload) = mkEnvelopes digest size payload := by
  refine sortByIdx_of_sorted _ ?_
  have h1 : ((mkEnvelopes digest size payload).map ChunkEnvelope.idx).Pairwise (· ≤ ·) := by
    rw [mkEnvelopes_map_idx]
    exact (List.pairwise_lt_range _).imp le_of_lt
  rw [List.pairwise_map] at h1
  exact h1

theorem chunkDecode_mkEnvelopes (digest : List Nat → List Char) (size : Nat)
    (payload : List Nat) (hsize : 0 < size) (hbytes : ∀ x ∈ payload, x < 256) :
    chunkDecode digest (mkEnvelopes digest size payload) = .ok payload := by
  have hmissing : missingIdx (mkEnvelopes digest size payload) = [] := by
    rw [missingIdx, List.filter_eq_nil_iff]
    intro i hi
    rw [mkEnvelopes_headTotal] at hi
    simp [mkEnvelopes_count digest size payload i (List.mem_range.mp hi)]
  have hdups : dupIdx (mkEnvelopes digest size payload) = [] := by
    rw [dupIdx, List.filter_eq_nil_iff]
    intro i hi
    rw [mkEnvelopes_headTotal] at hi
    simp [mkEnvelopes_count digest size payload i (List.mem_range.mp hi)]
  rw [chunkDecode, if_neg (by simp [hmissing, hdups])]
  rw [mkEnvelopes_sorted]
  rw [show checkChunks digest (mkEnvelopes digest size payload) = none from
    (checkChunks_eq_none_iff _ _).mpr (mkEnvelopes_no_failure digest size payload hsize hbytes)]
  rw [mkEnvelopes_decoded digest size payload hsize hbytes,
    chunkSplit_flatten size payload hsize]

/-- C7 (spec-modelled): the chunk-envelope decode contract.  Unless every
index in `[0, total)` is present exactly once, decode fails listing the
missing and duplicate indices; when the indices are exactly once but
some envelope fails verification (its base64 `data` does not decode, or
its 8-hex `checksum` disagrees with the digest of its data — e.g. after
flipping a byte of `data` without updating `checksum`), decode fails
naming the first corrupted index in ascending-`idx` order; otherwise it
returns the concatenation of the decoded chunk bytes sorted by `idx`;
in particular decoding the envelopes the source encoder produced
returns the payload. -/
theorem chunk_envelope_decode (digest : List Nat → List Char) (envs : List ChunkEnvelope)
    (size : Nat) (payload : List Nat) (hsize : 0 < size)
    (hbytes : ∀ x ∈ payload, x < 256) :
    ((∃ i, i < headTotal envs ∧ (envs.map ChunkEnvelope.idx).count i ≠ 1) →
      chunkDecode digest envs = .error (.badIndices (missingIdx envs) (dupIdx envs)) ∧
        (missingIdx envs ≠ [] ∨ dupIdx envs ≠ [])) ∧
      ((∀ i, i < headTotal envs → (envs.map ChunkEnvelope.idx).count i = 1) →
        (∃ e ∈ envs, envFails digest e = true) →
        ∃ j, chunkDecode digest envs = .error (.corrupt j) ∧
          (∃ e ∈ envs, e.idx = j ∧ envFails digest e = true) ∧
          ∀ e ∈ envs, e.idx < j → envFails digest e = false) ∧
      ((∀ i, i < headTotal envs → (envs.map ChunkEnvelope.idx).count i = 1) →
        (∀ e ∈ envs, envFails digest e = false) →
        chunkDecode digest envs =
          .ok (((sortByIdx envs).map (fun e => (b64decodeAux e.data).getD [])).flatten)) ∧
      chunkDecode digest (mkEnvelopes digest size payload) = .ok payload := by
  have hnodupcase : (∀ i, i < headTotal envs → (envs.map ChunkEnvelope.idx).count i = 1) →
      missingIdx envs = [] ∧ dupIdx envs = [] := by
    intro huniq
    constructor
    · rw [missingIdx, List.filter_eq_nil_iff]
      intro i hi
      simp [huniq i (List.mem_range.mp hi)]
    · rw [dupIdx, List.filter_eq_nil_iff]
      intro i hi
      simp [huniq i (List.mem_range.mp hi)]
  refine ⟨?_, ?_, ?_, chunkDecode_mkEnvelopes digest size payload hsize hbytes⟩
  · rintro ⟨i, hi, hcount⟩
    have hbad : missingIdx envs ≠ [] ∨ dupIdx envs ≠ [] := by
      rcases Nat.lt_or_ge ((envs.map ChunkEnvelope.idx).count i) 1 with h | h
      · left
        have : i ∈ missingIdx envs := by
          rw [missingIdx, List.mem_filter]
          exact ⟨List.mem_range.mpr hi, by simp; omega⟩
        exact List.ne_nil_of_mem this
      · right
        have : i ∈ dupIdx envs := by
          rw [dupIdx, List.mem_filter]
          exact ⟨List.mem_range.mpr hi, by simp; omega⟩
        exact List.ne_nil_of_mem this
    exact ⟨by rw [chunkDecode, if_pos hbad], hbad⟩
  · intro huniq hex
    obtain ⟨hm, hd⟩ := hnodupcase huniq
    cases hcc : checkChunks digest (sortByIdx envs) with
    | none =>
      obtain ⟨e, he, hef⟩ := hex
      have := (checkChunks_eq_none_iff digest _).mp hcc e
        ((sortByIdx_perm envs).mem_iff.mpr he)
      rw [hef] at this
      cases this
    | some j =>
      obtain ⟨pre, e', suf, hsplit, hpre, he', hj⟩ := checkChunks_some_split digest _ j hcc
      refine ⟨j, by rw [chunkDecode, if_neg (by simp [hm, hd]), hcc], ?_, ?_⟩
      · refine ⟨e', (sortByIdx_perm envs).mem_iff.mp ?_, hj, he'⟩
        rw [hsplit]
        simp
      · intro x hx hxlt
        have hxs : x ∈ sortByIdx envs := (sortByIdx_perm envs).mem_iff.mpr hx
        have hsorted := sortByIdx_sorted envs
        rw [hsplit] at hxs hsorted
        rw [List.Sorted, List.pairwise_append] at hsorted
        rcases List.mem_append.mp hxs with hxp | hxc
        · exact hpre x hxp
        · rcases List.mem_cons.mp hxc with rfl | hxsuf
          · omega
          · have := (List.pairwise_cons.mp hsorted.2.1).1 x hxsuf
            omega
  · intro huniq hall
    obtain ⟨hm, hd⟩ := hnodupcase huniq
    rw [chunkDecode, if_neg (by simp [hm, hd])]
    rw [show checkChunks digest (sortByIdx envs) = none from
      (checkChunks_eq_none_iff _ _).mpr
        (fun e he => hall e ((sortByIdx_perm envs).mem_iff.mp he))]

/-- Witness for C7: a single envelope claiming `total = 2` with index 1
fails listing missing index 0; decoding the envelopes produced for a
3-byte payload with chunk size 2 returns the payload. -/
theorem chunk_envelope_decode_witness :
    chunkDecode (fun _ => "00000000".toList)
        [⟨1, 2, "00000000".toList, "AA==".toList⟩] =
      .error (.badIndices [0] []) ∧
      chunkDecode (fun _ => "00000000".toList)
        (mkEnvelopes (fun _ => "00000000".toList) 2 [5, 6, 7]) = .ok [5, 6, 7] := by
  constructor
  · have h := (chunk_envelope_decode (fun _ => "00000000".toList)
      [⟨1, 2, "00000000".toList, "AA==".toList⟩] 2 [5, 6, 7] (by decide) (by decide)).1
      ⟨0, by decide, by decide⟩
    rw [show missingIdx [(⟨1, 2, "00000000".toList, "AA==".toList⟩ : ChunkEnvelope)] = [0]
        from rfl,
      show dupIdx [(⟨1, 2, "00000000".toList, "AA==".toList⟩ : ChunkEnvelope)] = [] from rfl]
      at h
    exact h.1
  · exact (chunk_envelope_decode (fun _ => "00000000".toList)
      (mkEnvelopes (fun _ => "00000000".toList) 2 [5, 6, 7]) 2 [5, 6, 7] (by decide)
      (by decide)).2.2.2

end Mp4svg
